import Mathlib

/-!
Verification of the owner-name parsing core of `src/Alachua/ownerMapping.js`.

The JavaScript source operates on JS strings; here every string operation is
embedded on `String` / `List Char`.  JS `\s` (whitespace) is modelled by the
whitespace characters that can actually occur in this pipeline
(space, tab, LF, VT, FF, CR and NBSP, the class the source names explicitly);
JS `\w` is `[A-Za-z0-9_]`.  JS `toUpperCase` / `toLowerCase` on the ASCII
strings this parser manipulates are `Char.toUpper` / `Char.toLower` mapped
over the characters.  Falsy-string checks (`if (!s)`) are `s = ""` checks,
and JS `null` string arguments are `Option.none`.
-/

namespace OwnerMapping

/-- Whitespace class used for JS `\s` and the explicit ` ` in `cleanText`:
space, tab, LF, VT, FF, CR, NBSP (code points 32, 9, 10, 11, 12, 13, 160). -/
def isSpaceChar (c : Char) : Bool :=
  c.toNat = 32 || c.toNat = 9 || c.toNat = 10 || c.toNat = 11 ||
  c.toNat = 12 || c.toNat = 13 || c.toNat = 160

/-- JS regex word character `\w`, that is `[A-Za-z0-9_]`. -/
def wordCharB (c : Char) : Bool :=
  (65 ≤ c.toNat && c.toNat ≤ 90) || (97 ≤ c.toNat && c.toNat ≤ 122) ||
  (48 ≤ c.toNat && c.toNat ≤ 57) || c.toNat = 95

/-- ASCII letter `[A-Za-z]`, the letter class of the tokenizer's character filter. -/
def isAsciiLetter (c : Char) : Bool :=
  (65 ≤ c.toNat && c.toNat ≤ 90) || (97 ≤ c.toNat && c.toNat ≤ 122)

/-- Collapse every whitespace run to a single space; the flag records whether
the previous character belonged to a whitespace run.  This is
`.replace(/\s+/g, " ")` of `cleanText` (its second replace,
`.replace(/[ \s]+/g, " ")`, is the identity on the output of the first). -/
def collapseGo (prevSpace : Bool) : List Char → List Char
  | [] => []
  | c :: rest =>
    if isSpaceChar c then
      if prevSpace then collapseGo true rest
      else ' ' :: collapseGo true rest
    else c :: collapseGo false rest

/-- JS `String.prototype.trim` on a character list. -/
def trimWs (l : List Char) : List Char :=
  ((l.dropWhile isSpaceChar).reverse.dropWhile isSpaceChar).reverse

/-- `cleanText` on a character list: collapse whitespace runs and trim. -/
def cleanTextL (l : List Char) : List Char :=
  trimWs (collapseGo false l)

/-- `cleanText` of the source (lines 10-14): collapse whitespace (including
non-breaking space) to single spaces and trim. -/
def cleanText (s : String) : String :=
  String.mk (cleanTextL s.data)

/-- The per-character state machine of `titleCase`'s
`replace(/\w\S*:/g, first upper + rest lower)` (the pattern has no colon; it is
a word character followed by non-spaces): `inside` is true while inside the
`\S*` continuation of a match. -/
def titleGo (inside : Bool) : List Char → List Char
  | [] => []
  | c :: rest =>
    if isSpaceChar c then c :: titleGo false rest
    else if inside then Char.toLower c :: titleGo true rest
    else if wordCharB c then Char.toUpper c :: titleGo true rest
    else c :: titleGo false rest

/-- `titleCase` of the source (lines 15-19): upper-case the first character of
each `\w\S*` match and lower-case the rest. -/
def titleCase (s : String) : String :=
  String.mk (titleGo false s.data)

/-- JS `toUpperCase` restricted to ASCII, as used on the parser's token strings. -/
def strUpper (s : String) : String :=
  String.mk (s.data.map Char.toUpper)

/-- JS `toLowerCase` restricted to ASCII, as used on the parser's token strings. -/
def strLower (s : String) : String :=
  String.mk (s.data.map Char.toLower)

/-- `trim` on a `String`. -/
def trimStr (s : String) : String :=
  String.mk (trimWs s.data)

/-- `.replace(/^\*/, "")`: strip one leading asterisk. -/
def stripLeadStar (s : String) : String :=
  match s.data with
  | c :: rest => if c = '*' then String.mk rest else s
  | [] => s

/-- `.replace(/^\*+/, "")`: strip every leading asterisk. -/
def stripLeadStars (s : String) : String :=
  String.mk (s.data.dropWhile (fun c => c == '*'))

/-- Character class kept by the tokenizer's `replace(/[^A-Za-z&'\-\s\.]/g, " ")`:
letters, ampersand, apostrophe, hyphen, whitespace and period survive,
everything else becomes a space. -/
def keepTokChar (c : Char) : Bool :=
  isAsciiLetter c || c = '&' || c = Char.ofNat 39 || c = '-' || c = '.' ||
  isSpaceChar c

/-- `tokenizeNamePart` of the source (lines 77-85): clean, strip leading
asterisks, replace every disallowed character by a space, split on spaces and
drop the empty pieces.  (`cleanText` already collapsed all whitespace to single
spaces, so the source's re-collapse before splitting is the identity and
splitting on the space character splits on all whitespace.) -/
def tokenizeNamePart (part : String) : List String :=
  let cleaned := (stripLeadStars (cleanText part)).data
  let replaced := cleaned.map (fun c => if keepTokChar c then c else ' ')
  ((replaced.splitOn ' ').map String.mk).filter (fun t => t ≠ "")

/-- A parsed person: `{type: "person", first_name, middle_name, last_name}`.
`middle_name` is `none` where the source stores `null`. -/
structure Person where
  first_name : String
  middle_name : Option String
  last_name : String
deriving DecidableEq

/-- A parsed owner: the source's tagged objects
`{type: "person", ...}` / `{type: "company", name}`. -/
inductive Owner where
  | person (p : Person)
  | company (name : String)
deriving DecidableEq

/-- An invalid entry `{raw, reason}` (source lines 222-225). -/
structure InvalidEntry where
  raw : String
  reason : String
deriving DecidableEq

/-- The result of `parseOwnersFromText`. -/
structure ParseResult where
  owners : List Owner
  invalids : List InvalidEntry
deriving DecidableEq

/-- The suffix set of `SUFFIXES_IGNORE` (source lines 57-58). -/
def SUFFIXES_IGNORE : List String :=
  ["jr", "sr", "ii", "iii", "iv", "v", "vi", "vii", "viii", "ix", "x",
   "md", "phd", "esq", "esquire"]

/-- `SUFFIXES_IGNORE.test(t)`: anchored, case-insensitive exact match. -/
def isSuffixTok (t : String) : Bool :=
  SUFFIXES_IGNORE.contains (strLower t)

/-- JS `Array.prototype.join(" ")`. -/
def joinSpace (l : List String) : String :=
  String.mk (List.intercalate [' '] (l.map String.data))

/-- JS `String.prototype.split(" ")`: split on each single space character. -/
def splitSpace (s : String) : List String :=
  (s.data.splitOn ' ').map String.mk

/-- The surname-omission condition of `buildPersonFromTokens` (source lines
99-105): a truthy fallback surname, at most two tokens, a nonempty first token
equal to its own upper-casing, and a truthy second token. -/
def surnameOverride (tokens : List String) (fallbackLastName : Option String) : Bool :=
  (match fallbackLastName with
   | some f => f ≠ ""
   | none => false) &&
  tokens.length ≤ 2 &&
  (tokens.headD "") ≠ "" &&
  (tokens.headD "") == strUpper (tokens.headD "") &&
  (tokens.getD 1 "") ≠ ""

/-- Middle-name cleanup of `buildPersonFromTokens` (source lines 113-116):
split on spaces, drop suffix tokens, re-join, and `|| null` the empty result.
(The source skips this block when `middle` is the empty string, but on the
empty string the block returns `null` just as `middle ? ... : null` does.) -/
def stripMiddleSuffixes (middle : String) : Option String :=
  let mids := (splitSpace middle).filter (fun t => ¬ isSuffixTok t)
  let j := joinSpace mids
  if j = "" then none else some j

/-- `buildPersonFromTokens` of the source (lines 87-124). -/
def buildPersonFromTokens (tokens : List String) (fallbackLastName : Option String) :
    Option Person :=
  match tokens with
  | [] => none
  | [_] => none
  | t0 :: t1 :: rest =>
    let baseline : String × String × Option String :=
      (t0, t1, if rest = [] then none else some (joinSpace rest))
    let chosen :=
      if surnameOverride (t0 :: t1 :: rest) fallbackLastName then
        (fallbackLastName.getD "", t0, some t1)
      else baseline
    let middle := chosen.2.2.bind stripMiddleSuffixes
    some { first_name := titleCase chosen.2.1
           middle_name := middle.map titleCase
           last_name := titleCase chosen.1 }

/-- `p ? p :: l : l`, the effect of `if (p) owners.push(p)`. -/
def consOpt (o : Option Person) (l : List Person) : List Person :=
  match o with
  | some p => p :: l
  | none => l

/-- The index loop of `splitMultiplePersonsWithSharedLast` (source lines
132-146) as recursion over the remainder list: while the lookahead token
`rem[i+1]` is present and truthy, consume two tokens, else consume one. -/
def splitChunksGo (lastTok : String) : List String → List Person
  | [] => []
  | [f] => consOpt (buildPersonFromTokens [lastTok, f] none) []
  | f :: m :: rest =>
    if m ≠ "" then
      consOpt (buildPersonFromTokens [lastTok, f, m] none) (splitChunksGo lastTok rest)
    else
      consOpt (buildPersonFromTokens [lastTok, f] none) (splitChunksGo lastTok (m :: rest))

/-- `splitMultiplePersonsWithSharedLast` of the source (lines 126-148). -/
def splitMultiplePersonsWithSharedLast (tokens : List String) : List Person :=
  if tokens.length < 4 then []
  else
    match tokens with
    | [] => []
    | lastTok :: rem => splitChunksGo lastTok rem

/-- One alternative of the `COMPANY_KEYWORDS` alternation: a literal, a
literal with optional trailing period (`\.?`), or a literal followed by `\b`. -/
inductive RAlt where
  | lit (w : String)
  | litDot (w : String)
  | litB (w : String)

/-- Character of `l` at index `i`, with a space (a non-word character) when out
of range. -/
def chAt (l : List Char) (i : Nat) : Char :=
  l.getD i ' '

/-- Whether position `i` of `l` holds a word character (out of range: no). -/
def wordAt (l : List Char) (i : Nat) : Bool :=
  decide (i < l.length) && wordCharB (chAt l i)

/-- JS `\b` between positions `i-1` and `i`: exactly one side is a word
character (string ends count as non-word). -/
def boundaryAt (l : List Char) (i : Nat) : Bool :=
  (decide (i ≠ 0) && wordAt l (i - 1)) != wordAt l i

/-- Whether position `i` of `l` holds a whitespace character. -/
def spaceAt (l : List Char) (i : Nat) : Bool :=
  decide (i < l.length) && isSpaceChar (chAt l i)

/-- The literal `w` occurs in `l` starting at index `i`. -/
def litHere (l : List Char) (i : Nat) (w : String) : Bool :=
  w.data.isPrefixOf (l.drop i)

/-- The regex's trailing `(\b|\s)` requirement at position `i`. -/
def trailCtx (l : List Char) (i : Nat) : Bool :=
  boundaryAt l i || spaceAt l i

/-- Match one alternative of the alternation at position `i`, including the
trailing `(\b|\s)` of the whole pattern. -/
def altHere (l : List Char) (i : Nat) : RAlt → Bool
  | .lit w => litHere l i w && trailCtx l (i + w.data.length)
  | .litB w =>
      litHere l i w && boundaryAt l (i + w.data.length) &&
      trailCtx l (i + w.data.length)
  | .litDot w =>
      (litHere l i (w ++ ".") && trailCtx l (i + w.data.length + 1)) ||
      (litHere l i w && trailCtx l (i + w.data.length))

/-- The alternatives of `COMPANY_KEYWORDS` (source lines 55-56), in order. -/
def COMPANY_ALTS : List RAlt :=
  [.litDot "inc", .lit "l.l.c.", .lit "llc", .litDot "ltd", .lit "foundation",
   .lit "alliance", .lit "solutions", .litDot "corp", .litDot "co",
   .lit "services", .litB "trust", .litB "tr", .lit "associates",
   .lit "partners", .litB "lp", .litB "llp", .litB "bank", .lit "n.a.",
   .litB "na", .litB "pllc", .lit "company", .lit "enterprises",
   .lit "properties", .lit "holdings"]

/-- A match of `COMPANY_KEYWORDS` starting at position `p`: the leading
`(\b|\s)` either matches the zero-width boundary at `p` or consumes one
whitespace character, after which some alternative matches. -/
def companyMatchAt (l : List Char) (p : Nat) : Bool :=
  (boundaryAt l p && COMPANY_ALTS.any (altHere l p)) ||
  (spaceAt l p && COMPANY_ALTS.any (altHere l (p + 1)))

/-- `isCompanyName` of the source (lines 73-75): `COMPANY_KEYWORDS.test(txt)`,
a case-insensitive search for a match at any position. -/
def isCompanyName (txt : String) : Bool :=
  let low := txt.data.map Char.toLower
  (List.range (low.length + 1)).any (companyMatchAt low)

/-- `normalizeOwnerKey` of the source (lines 60-71). -/
def normalizeOwnerKey : Owner → String
  | .company name => strLower (cleanText name)
  | .person p =>
    let f := strLower p.first_name
    let m := strLower (p.middle_name.getD "")
    let l := strLower p.last_name
    trimStr (joinSpace (([f, m, l]).filter (fun s => s ≠ "")))

/-- The middle-name nullification applied during deduplication (source lines
240-242): an absent or blank middle name becomes `none`. -/
def nullifyMiddle : Owner → Owner
  | .person p =>
    if p.middle_name = none ∨ trimStr (p.middle_name.getD "") = "" then
      .person { p with middle_name := none }
    else .person p
  | .company name => .company name

/-- The deduplication loop of `parseOwnersFromText` (source lines 232-244):
keep the first owner of each nonempty normalized key, nullifying blank middle
names on the way; `seen` is the set of keys already kept. -/
def dedupGo (seen : List String) : List Owner → List Owner
  | [] => []
  | o :: rest =>
    let key := normalizeOwnerKey o
    if key = "" ∨ seen.contains key then dedupGo seen rest
    else nullifyMiddle o :: dedupGo (key :: seen) rest

/-- Deduplicate an owner list by normalized key, first occurrence wins. -/
def dedupOwners (l : List Owner) : List Owner :=
  dedupGo [] l

/-- The parser state while the orchestrator walks the segments: the two
accumulator arrays and the running `lastSurname`. -/
structure PState where
  owners : List Owner
  invalids : List InvalidEntry
  lastSurname : Option String
deriving DecidableEq

/-- The fixed reason code of every invalid entry. -/
def AMBIGUOUS : String := "ambiguous_or_incomplete_person_name"

/-- Append a person and update the running surname
(source lines 216-220: `lastSurname = person.last_name.toUpperCase()`
guarded by the truthiness of `person.last_name`). -/
def pushPerson (st : PState) (p : Person) : PState :=
  { st with
    owners := st.owners ++ [Owner.person p]
    lastSurname := if p.last_name ≠ "" then some (strUpper p.last_name) else st.lastSurname }

/-- Append an invalid entry for an unresolved sub-part (source lines 221-226). -/
def pushInvalid (st : PState) (part : String) : PState :=
  { st with invalids := st.invalids ++ [⟨part, AMBIGUOUS⟩] }

/-- The tail of the per-sub-part body (source lines 190-226), after the
multi-person attempt: remember the local surname candidate, build a person
with the appropriate fallback, try the blind split of a failed build with at
least four tokens, and push the person or an invalid entry.  Returns the new
state and the new local surname candidate. -/
def stepRest (idx : Nat) (st : PState) (localLS : Option String) (part : String)
    (tokens : List String) : PState × Option String :=
  let localLS' := if idx = 0 then some (tokens.headD "") else localLS
  let fb : Option String := if idx = 0 then none else localLS'.orElse (fun _ => st.lastSurname)
  let person := buildPersonFromTokens tokens fb
  match person with
  | some p => (pushPerson st p, localLS')
  | none =>
    if 4 ≤ tokens.length then
      let lastTok := tokens.headD ""
      match buildPersonFromTokens (tokens.take 3) none,
            buildPersonFromTokens (tokens.drop 3) (some lastTok) with
      | some p1, some p2 =>
        ({ st with
           owners := st.owners ++ [Owner.person p1, Owner.person p2]
           lastSurname := if lastTok ≠ "" then some (strUpper lastTok) else st.lastSurname },
         localLS')
      | _, _ => (pushInvalid st part, localLS')
    else (pushInvalid st part, localLS')

/-- The whole per-sub-part body (source lines 176-227): skip empty token
lists; with a single sub-part of at least four tokens try the multi-person
split, emitting its result when it found at least two people; otherwise fall
through to `stepRest`. -/
def stepPart (total idx : Nat) (st : PState) (localLS : Option String) (part : String) :
    PState × Option String :=
  let tokens := tokenizeNamePart part
  if tokens = [] then (st, localLS)
  else if total = 1 ∧ 4 ≤ tokens.length then
    let multi := splitMultiplePersonsWithSharedLast tokens
    if 2 ≤ multi.length then
      ({ st with
         owners := st.owners ++ multi.map Owner.person
         lastSurname := some (strUpper (tokens.headD "")) }, localLS)
    else stepRest idx st localLS part tokens
  else stepRest idx st localLS part tokens

/-- `andParts.forEach(...)` (source line 176): fold `stepPart` over the
sub-parts, threading the state, the local surname candidate and the index. -/
def processParts (total : Nat) (st : PState) (localLS : Option String) (idx : Nat) :
    List String → PState
  | [] => st
  | part :: rest =>
    let next := stepPart total idx st localLS part
    processParts total next.1 next.2 (idx + 1) rest

/-- Re-clean a comma segment (source line 164):
`cleanText(segment).replace(/^\*/, "").trim()`. -/
def segClean (segment : String) : String :=
  trimStr (stripLeadStar (cleanText segment))

/-- The characters start with `and` (case-insensitively) followed by a
non-word character or the end: the literal and the right `\b` of `\band\b`. -/
def isAndHere : List Char → Bool
  | a :: n :: d :: rest =>
    Char.toLower a = 'a' && Char.toLower n = 'n' && Char.toLower d = 'd' &&
    (match rest with
     | [] => true
     | c :: _ => ¬ wordCharB c)
  | _ => false

/-- Split a segment into sub-parts on `&` or the standalone word `and`
(source line 173, `/\s*(?:&|\band\b)\s*/i`); scanner over the characters.
`prevW` records whether the previous character is a word character (the
left context of `\band\b`); the surrounding `\s*` of the separator is
accounted for by trimming the pieces afterwards (`andPartsOf`).  After a
matched `and` the scan resumes behind the `d`: `skip` counts separator
characters still to consume without emitting (while consuming them `prevW`
tracks their wordness, ending on the word character `d`). -/
def splitAmpAndGo (skip : Nat) (buf : List Char) (prevW : Bool) : List Char → List (List Char)
  | [] => [buf.reverse]
  | c :: rest =>
    match skip with
    | k + 1 => splitAmpAndGo k buf (wordCharB c) rest
    | 0 =>
      if c = '&' then buf.reverse :: splitAmpAndGo 0 [] false rest
      else if ¬ prevW ∧ isAndHere (c :: rest) then
        buf.reverse :: splitAmpAndGo 2 [] true rest
      else splitAmpAndGo 0 (c :: buf) (wordCharB c) rest

/-- The sub-parts of a segment: pieces between the `&`/`and` separators, the
separators' surrounding whitespace removed, empties dropped
(source line 173, `.split(...).filter(Boolean)`). -/
def andPartsOf (seg : String) : List String :=
  (((splitAmpAndGo 0 [] false seg.data).map (fun p => trimStr (String.mk p))).filter
    (fun p => p ≠ ""))

/-- `pushOwnerOrInvalid` of the source (lines 163-228). -/
def pushOwnerOrInvalid (st : PState) (segment : String) : PState :=
  let seg := segClean segment
  if seg = "" then st
  else if isCompanyName seg then
    { st with owners := st.owners ++ [Owner.company (titleCase seg)] }
  else
    let andParts := andPartsOf seg
    processParts andParts.length st none 0 andParts

/-- The cleaned top-level text (source lines 154-157): `cleanText`, strip one
leading asterisk, collapse whitespace runs again and trim.  (After
`cleanText` no run of two or more whitespace characters remains, so the
source's `replace` of such runs by a space coincides with `collapseGo`.) -/
def textOf (raw : String) : String :=
  trimStr (String.mk (collapseGo false (stripLeadStar (cleanText raw)).data))

/-- The comma segments (source line 160, `text.split(/\s*,\s*/).filter(Boolean)`):
split at each comma, the whitespace adjacent to the commas being consumed by
the separator, and drop empty segments.  Splitting at the commas and trimming
each piece is that split, because the text is already trimmed and whitespace
collapsed. -/
def segmentsOf (text : String) : List String :=
  (((text.data.splitOn ',').map (fun p => trimStr (String.mk p))).filter
    (fun p => p ≠ ""))

/-- Fold the segment handler over the comma segments, starting from the empty
state (source line 230). -/
def runSegments (segs : List String) : PState :=
  segs.foldl pushOwnerOrInvalid ⟨[], [], none⟩

/-- The full accumulated state of one `parseOwnersFromText` call, before
deduplication.  A `none` argument is a JS `null`/`undefined` field, and the
source's `if (!rawText)` also catches the empty string. -/
def parseState (rawText : Option String) : PState :=
  match rawText with
  | none => ⟨[], [], none⟩
  | some raw =>
    if raw = "" then ⟨[], [], none⟩
    else runSegments (segmentsOf (textOf raw))

/-- The owner list accumulated before deduplication. -/
def preOwners (rawText : Option String) : List Owner :=
  (parseState rawText).owners

/-- `parseOwnersFromText` of the source (lines 150-247). -/
def parseOwnersFromText (rawText : Option String) : ParseResult :=
  ⟨dedupOwners (parseState rawText).owners, (parseState rawText).invalids⟩

/-! Claim-side predicates.

`claimCompanyKeywordHere` / `claimIsCompany` formalize the specification's
description of the company classifier (claim C3, spec 4.2): the cleaned text
contains, as a whole word ignoring case, one of a fixed list of indicators —
an occurrence of the indicator preceded and followed by a word boundary. -/

/-- The indicator list exactly as the specification enumerates it. -/
def CLAIM_COMPANY_KEYWORDS : List String :=
  ["inc", "llc", "ltd", "foundation", "alliance", "solutions", "corp", "co",
   "services", "trust", "tr", "associates", "partners", "lp", "llp", "bank",
   "n.a.", "na", "pllc", "company", "enterprises", "properties", "holdings"]

/-- The occurrence at position `q` is preceded by the start of the text or a
non-word character. -/
def preOK (l : List Char) (q : Nat) : Bool :=
  q == 0 || !wordAt l (q - 1)

/-- `w` occurs at position `q` of `l` as a whole word: the occurrence is
preceded by the start or a non-word character and followed by the end or a
non-word character. -/
def wholeWordAt (l : List Char) (q : Nat) (w : String) : Bool :=
  litHere l q w && preOK l q && !wordAt l (q + w.data.length)

/-- Case-insensitive whole-word containment. -/
def containsWholeWord (txt : String) (w : String) : Bool :=
  let low := txt.data.map Char.toLower
  (List.range (low.length + 1)).any (fun q => wholeWordAt low q w)

/-- The company classifier exactly as the specification words it. -/
def claimIsCompany (txt : String) : Bool :=
  CLAIM_COMPANY_KEYWORDS.any (fun w => containsWholeWord txt w)

/-- Occurrence condition of the period-terminated indicators (`l.l.c.`,
`n.a.`) under the source's regex: preceded by the start or a non-word
character, and followed by a word character or a whitespace character (so in
particular not by the end of the text). -/
def dottedWordAt (l : List Char) (q : Nat) (w : String) : Bool :=
  litHere l q w && preOK l q &&
  (wordAt l (q + w.data.length) || spaceAt l (q + w.data.length))

/-- The indicator list that characterizes the source classifier: the
specification's plain words (matched as whole words) plus the two
period-terminated forms `l.l.c.` and `n.a.` (matched with `dottedWordAt`);
the flag marks the period-terminated forms. -/
def AMENDED_COMPANY_KEYWORDS : List (String × Bool) :=
  [("inc", false), ("l.l.c.", true), ("llc", false), ("ltd", false),
   ("foundation", false), ("alliance", false), ("solutions", false),
   ("corp", false), ("co", false), ("services", false), ("trust", false),
   ("tr", false), ("associates", false), ("partners", false), ("lp", false),
   ("llp", false), ("bank", false), ("n.a.", true), ("na", false),
   ("pllc", false), ("company", false), ("enterprises", false),
   ("properties", false), ("holdings", false)]

/-- One indicator's occurrence test at a position: whole-word for a plain
indicator, word-or-space successor for a period-terminated one. -/
def keywordOccAt (l : List Char) (q : Nat) (wd : String × Bool) : Bool :=
  (!wd.2 && wholeWordAt l q wd.1) || (wd.2 && dottedWordAt l q wd.1)

/-- The corrected description of the company classifier: some indicator
occurs case-insensitively, whole-word for the plain indicators, with a
word-or-space successor for the period-terminated ones. -/
def amendedIsCompany (txt : String) : Bool :=
  let low := txt.data.map Char.toLower
  (List.range (low.length + 1)).any (fun q =>
    AMENDED_COMPANY_KEYWORDS.any (keywordOccAt low q))

/-! Basic facts about characters and the text primitives. -/

theorem toNat_ofNatAux (n : Nat) (h : n.isValidChar) : (Char.ofNatAux n h).toNat = n := by
  simp [Char.ofNatAux, Char.toNat, UInt32.toNat, UInt32.ofNatCore]

theorem toNat_ofNat (n : Nat) (h : n.isValidChar) : (Char.ofNat n).toNat = n := by
  simp [Char.ofNat, h, toNat_ofNatAux]

theorem char_eq_of_toNat_eq {a b : Char} (h : a.toNat = b.toNat) : a = b :=
  Char.eq_of_val_eq (UInt32.ext h)

theorem toNat_toUpper (c : Char) :
    c.toUpper.toNat = if 97 ≤ c.toNat ∧ c.toNat ≤ 122 then c.toNat - 32 else c.toNat := by
  simp only [Char.toUpper]
  by_cases h : c.toNat ≥ 97 ∧ c.toNat ≤ 122
  · rw [if_pos h, if_pos ⟨h.1, h.2⟩, toNat_ofNat _ (Or.inl (by omega))]
  · rw [if_neg h, if_neg (by omega)]

theorem toNat_toLower (c : Char) :
    c.toLower.toNat = if 65 ≤ c.toNat ∧ c.toNat ≤ 90 then c.toNat + 32 else c.toNat := by
  simp only [Char.toLower]
  by_cases h : c.toNat ≥ 65 ∧ c.toNat ≤ 90
  · rw [if_pos h, if_pos ⟨h.1, h.2⟩, toNat_ofNat _ (Or.inl (by omega))]
  · rw [if_neg h, if_neg (by omega)]

theorem toLower_toUpper (c : Char) : c.toUpper.toLower = c.toLower := by
  apply char_eq_of_toNat_eq
  simp only [toNat_toLower, toNat_toUpper]
  split_ifs <;> omega

theorem toLower_toLower (c : Char) : c.toLower.toLower = c.toLower := by
  apply char_eq_of_toNat_eq
  simp only [toNat_toLower]
  split_ifs <;> omega

theorem isSpaceChar_toUpper (c : Char) : isSpaceChar c.toUpper = isSpaceChar c := by
  simp only [isSpaceChar, toNat_toUpper]
  rw [Bool.eq_iff_iff]
  simp only [Bool.or_eq_true, decide_eq_true_eq]
  split_ifs <;> omega

theorem isSpaceChar_toLower (c : Char) : isSpaceChar c.toLower = isSpaceChar c := by
  simp only [isSpaceChar, toNat_toLower]
  rw [Bool.eq_iff_iff]
  simp only [Bool.or_eq_true, decide_eq_true_eq]
  split_ifs <;> omega

theorem mem_collapseGo {l : List Char} {b : Bool} {c : Char}
    (h : c ∈ collapseGo b l) : c = ' ' ∨ c ∈ l := by
  induction l generalizing b with
  | nil => simp [collapseGo] at h
  | cons d rest ih =>
    simp only [collapseGo] at h
    split at h
    · split at h
      · rcases ih h with h' | h'
        · exact Or.inl h'
        · exact Or.inr (List.mem_cons_of_mem _ h')
      · rcases List.mem_cons.mp h with h' | h'
        · exact Or.inl h'
        · rcases ih h' with h'' | h''
          · exact Or.inl h''
          · exact Or.inr (List.mem_cons_of_mem _ h'')
    · rcases List.mem_cons.mp h with h' | h'
      · exact Or.inr (h' ▸ List.mem_cons_self _ _)
      · rcases ih h' with h'' | h''
        · exact Or.inl h''
        · exact Or.inr (List.mem_cons_of_mem _ h'')

theorem dropWhile_eq_nil_of_forall {p : Char → Bool} {l : List Char}
    (h : ∀ c ∈ l, p c = true) : l.dropWhile p = [] := by
  induction l with
  | nil => rfl
  | cons d rest ih =>
    rw [List.dropWhile_cons, if_pos (h d (List.mem_cons_self _ _))]
    exact ih (fun c hc => h c (List.mem_cons_of_mem _ hc))

theorem trimWs_allspace {l : List Char} (h : ∀ c ∈ l, isSpaceChar c = true) :
    trimWs l = [] := by
  unfold trimWs
  rw [dropWhile_eq_nil_of_forall h]
  rfl

theorem cleanText_allspace {s : String} (h : ∀ c ∈ s.data, isSpaceChar c = true) :
    cleanText s = "" := by
  unfold cleanText cleanTextL
  rw [trimWs_allspace (fun c hc => by
    rcases mem_collapseGo hc with h' | h'
    · subst h'; decide
    · exact h c h')]

/-- C1 counterexample: parsing `"SMITH JOHN & MARY"` does not return the two
Persons the claim names with no invalid entry; the single-token sub-part
`MARY` cannot be built into a person. -/
theorem claim_C1_counterexample :
    ¬ ((parseOwnersFromText (some "SMITH JOHN & MARY")).owners =
         [Owner.person ⟨"John", none, "Smith"⟩, Owner.person ⟨"Mary", none, "Smith"⟩] ∧
       (parseOwnersFromText (some "SMITH JOHN & MARY")).invalids = []) := by
  decide

/-- C1 (amended): parsing `"SMITH JOHN & MARY"` returns exactly one Person
`{John, -, Smith}` together with one InvalidEntry for the raw sub-part
`"MARY"` — the fallback-surname mechanism applies only to sub-parts of at
least two tokens, and a one-token sub-part is never built into a Person. -/
theorem claim_C1 :
    parseOwnersFromText (some "SMITH JOHN & MARY") =
      ⟨[Owner.person ⟨"John", none, "Smith"⟩], [⟨"MARY", AMBIGUOUS⟩]⟩ := by
  decide

/-- C6 counterexample: on tokens `["SMITH", "JOHN", "JR"]` with no fallback
surname the builder does not make `"Jr"` the middle name (as the claim's
baseline interpretation `tokens[2:]` joined would have it); the suffix token
is stripped and the middle name is absent. -/
theorem claim_C6_counterexample :
    buildPersonFromTokens ["SMITH", "JOHN", "JR"] none ≠
      some ⟨"John", some "Jr", "Smith"⟩ ∧
    buildPersonFromTokens ["SMITH", "JOHN", "JR"] none =
      some ⟨"John", none, "Smith"⟩ := by
  decide

/-- C3 counterexample: `"ACME N.A."` contains the indicator `n.a.` as a whole
word (case-insensitively), yet `isCompanyName` returns false on it — the
regex's trailing context requirement fails after a final period at the end of
the text.  So the claimed characterization is not an equivalence. -/
theorem claim_C3_counterexample :
    ¬ (isCompanyName "ACME N.A." = true ↔ claimIsCompany "ACME N.A." = true) := by
  decide

/-- C4 counterexample: `"ACME LLC, BETA CORP"` contains a recognized company
keyword as a whole word, yet parsing it yields two owners, not exactly one
Company named by the title-cased text. -/
theorem claim_C4_counterexample :
    claimIsCompany "ACME LLC, BETA CORP" = true ∧
    (parseOwnersFromText (some "ACME LLC, BETA CORP")).owners.length ≠ 1 := by
  decide

/-- C9: the parser is total by construction (`parseOwnersFromText` is a total
function into `ParseResult`), and a `null` argument, the empty string, or a
whitespace-only string each produce the empty result `{owners: [], invalids: []}`. -/
theorem claim_C9 :
    parseOwnersFromText none = ⟨[], []⟩ ∧
    parseOwnersFromText (some "") = ⟨[], []⟩ ∧
    ∀ s : String, (∀ c ∈ s.data, isSpaceChar c = true) →
      parseOwnersFromText (some s) = ⟨[], []⟩ := by
  refine ⟨by decide, by decide, fun s hs => ?_⟩
  by_cases h0 : s = ""
  · subst h0; decide
  · have htext : textOf s = "" := by
      unfold textOf
      rw [cleanText_allspace hs]
      decide
    simp only [parseOwnersFromText, parseState]
    rw [if_neg h0, htext]
    decide

/-- C9 witness: the whitespace-only input `" "` taken through the theorem. -/
theorem claim_C9_witness :
    parseOwnersFromText (some " ") = ⟨[], []⟩ :=
  claim_C9.2.2 " " (by decide)

/-! The invalid entries of a parse, characterized: exactly the one-token
sub-parts of the non-company segments, in order, independent of the
surname-propagation state. -/

theorem bpft_isSome (ts : List String) (fb : Option String) (h : 2 ≤ ts.length) :
    (buildPersonFromTokens ts fb).isSome = true := by
  match ts with
  | [] => simp at h
  | [t] => simp at h
  | t0 :: t1 :: rest => simp [buildPersonFromTokens]

theorem bpft_eq_none_iff (ts : List String) (fb : Option String) :
    buildPersonFromTokens ts fb = none ↔ ts.length ≤ 1 := by
  match ts with
  | [] => simp [buildPersonFromTokens]
  | [t] => simp [buildPersonFromTokens]
  | t0 :: t1 :: rest =>
    simp only [buildPersonFromTokens, List.length_cons]
    constructor
    · intro h
      exact absurd h (by simp)
    · omega

theorem stepRest_invalids (idx : Nat) (st : PState) (localLS : Option String)
    (part : String) (tokens : List String) :
    (stepRest idx st localLS part tokens).1.invalids =
      st.invalids ++ (if tokens.length ≤ 1 then [⟨part, AMBIGUOUS⟩] else []) := by
  unfold stepRest
  dsimp only
  split
  · next p hp =>
    have hlen : ¬ tokens.length ≤ 1 := by
      intro hle
      rw [(bpft_eq_none_iff tokens _).mpr hle] at hp
      exact Option.noConfusion hp
    simp [pushPerson, hlen]
  · next hp =>
    have hlen : tokens.length ≤ 1 := (bpft_eq_none_iff tokens _).mp hp
    rw [if_neg (show ¬ 4 ≤ tokens.length by omega)]
    simp [pushInvalid, hlen]

theorem stepPart_invalids (total idx : Nat) (st : PState) (localLS : Option String)
    (part : String) :
    (stepPart total idx st localLS part).1.invalids =
      st.invalids ++
        (if (tokenizeNamePart part).length = 1 then [⟨part, AMBIGUOUS⟩] else []) := by
  unfold stepPart
  by_cases hnil : tokenizeNamePart part = []
  · rw [if_pos hnil, hnil]
    simp
  · rw [if_neg hnil]
    have hpos : 1 ≤ (tokenizeNamePart part).length :=
      Nat.one_le_iff_ne_zero.mpr (fun h => hnil (List.length_eq_zero.mp h))
    by_cases hmulti : total = 1 ∧ 4 ≤ (tokenizeNamePart part).length
    · rw [if_pos hmulti]
      dsimp only
      split
      · rw [if_neg (show ¬ (tokenizeNamePart part).length = 1 by omega)]
        simp
      · rw [stepRest_invalids,
          if_neg (show ¬ (tokenizeNamePart part).length ≤ 1 by omega),
          if_neg (show ¬ (tokenizeNamePart part).length = 1 by omega)]
    · rw [if_neg hmulti, stepRest_invalids]
      congr 1
      by_cases h1 : (tokenizeNamePart part).length = 1
      · rw [if_pos (by omega), if_pos h1]
      · rw [if_neg (by omega), if_neg h1]

theorem processParts_invalids (parts : List String) (total : Nat) (st : PState)
    (localLS : Option String) (idx : Nat) :
    (processParts total st localLS idx parts).invalids =
      st.invalids ++
        ((parts.filter (fun p => (tokenizeNamePart p).length = 1)).map
          (fun p => (⟨p, AMBIGUOUS⟩ : InvalidEntry))) := by
  induction parts generalizing st localLS idx with
  | nil => simp [processParts]
  | cons part rest ih =>
    simp only [processParts]
    rw [ih, stepPart_invalids]
    by_cases h1 : (tokenizeNamePart part).length = 1
    · simp [h1, List.filter_cons]
    · simp [h1, List.filter_cons]

/-- The invalid entries one segment contributes: nothing for blank or company
segments, else one entry per sub-part whose tokenization has exactly one
token. -/
def segInvalids (segment : String) : List InvalidEntry :=
  if segClean segment = "" then []
  else if isCompanyName (segClean segment) then []
  else
    ((andPartsOf (segClean segment)).filter
      (fun p => (tokenizeNamePart p).length = 1)).map (fun p => ⟨p, AMBIGUOUS⟩)

theorem pushOwnerOrInvalid_invalids (st : PState) (segment : String) :
    (pushOwnerOrInvalid st segment).invalids = st.invalids ++ segInvalids segment := by
  unfold pushOwnerOrInvalid segInvalids
  by_cases h0 : segClean segment = ""
  · simp [h0]
  · rw [if_neg h0, if_neg h0]
    cases hc : isCompanyName (segClean segment) with
    | true =>
      simp [hc]
    | false =>
      simp only [hc, Bool.false_eq_true, if_false]
      rw [processParts_invalids]

theorem runSegments_invalids_aux (segs : List String) (st : PState) :
    (segs.foldl pushOwnerOrInvalid st).invalids =
      st.invalids ++ (segs.map segInvalids).flatten := by
  induction segs generalizing st with
  | nil => simp
  | cons seg rest ih =>
    simp only [List.foldl_cons, List.map_cons, List.flatten_cons]
    rw [ih, pushOwnerOrInvalid_invalids, List.append_assoc]

/-- The invalid entries of a full parse, as a function of the input alone. -/
def expectedInvalids (rawText : Option String) : List InvalidEntry :=
  match rawText with
  | none => []
  | some raw =>
    if raw = "" then []
    else ((segmentsOf (textOf raw)).map segInvalids).flatten

theorem parse_invalids_characterization (rawText : Option String) :
    (parseOwnersFromText rawText).invalids = expectedInvalids rawText := by
  cases rawText with
  | none => rfl
  | some raw =>
    simp only [parseOwnersFromText, parseState, expectedInvalids]
    by_cases h0 : raw = ""
    · simp [h0]
    · rw [if_neg h0, if_neg h0]
      exact runSegments_invalids_aux _ _

theorem mem_segInvalids {e : InvalidEntry} {seg : String} (h : e ∈ segInvalids seg) :
    (tokenizeNamePart e.raw).length = 1 ∧ e.reason = AMBIGUOUS := by
  unfold segInvalids at h
  by_cases h0 : segClean seg = ""
  · rw [if_pos h0] at h
    simp at h
  · rw [if_neg h0] at h
    by_cases hc : isCompanyName (segClean seg) = true
    · rw [if_pos hc] at h
      simp at h
    · rw [if_neg hc] at h
      rcases List.mem_map.mp h with ⟨p, hp, rfl⟩
      have hpred := List.of_mem_filter hp
      simp only [decide_eq_true_eq] at hpred
      exact ⟨hpred, rfl⟩

theorem mem_expectedInvalids {e : InvalidEntry} {rawText : Option String}
    (h : e ∈ expectedInvalids rawText) :
    (tokenizeNamePart e.raw).length = 1 ∧ e.reason = AMBIGUOUS := by
  cases rawText with
  | none => simp [expectedInvalids] at h
  | some raw =>
    simp only [expectedInvalids] at h
    by_cases h0 : raw = ""
    · rw [if_pos h0] at h
      simp at h
    · rw [if_neg h0] at h
      rcases List.mem_flatten.mp h with ⟨l, hl, hel⟩
      rcases List.mem_map.mp hl with ⟨seg, _, rfl⟩
      exact mem_segInvalids hel

/-- C2: a token list of length at least two always builds a Person, whatever
the fallback surname; hence a failed build never has four or more tokens (the
blind-split branch of the orchestrator is unreachable), and every invalid
entry of a parse comes from a sub-part whose tokenization has exactly one
token — a sub-part with at least two tokens never produces an InvalidEntry. -/
theorem claim_C2 :
    (∀ (tokens : List String) (fb : Option String), 2 ≤ tokens.length →
      (buildPersonFromTokens tokens fb).isSome = true) ∧
    (∀ (tokens : List String) (fb : Option String), 4 ≤ tokens.length →
      buildPersonFromTokens tokens fb ≠ none) ∧
    (∀ (rawText : Option String) (e : InvalidEntry),
      e ∈ (parseOwnersFromText rawText).invalids →
      (tokenizeNamePart e.raw).length = 1) := by
  refine ⟨bpft_isSome, fun ts fb h4 hn => ?_, fun raw e he => ?_⟩
  · rw [bpft_eq_none_iff] at hn
    omega
  · rw [parse_invalids_characterization] at he
    exact (mem_expectedInvalids he).1

/-- C2 witness: two tokens with no fallback surname build a Person. -/
theorem claim_C2_witness :
    (buildPersonFromTokens ["SMITH", "JOHN"] none).isSome = true :=
  claim_C2.1 ["SMITH", "JOHN"] none (by decide)

/-- C10 counterexample: `"123 456"` is a non-empty fragment (its cleaned
segment is non-empty and not classified as a company) that cannot be built
into a Person, yet the parse result carries no InvalidEntry at all — the
fragment tokenizes to zero tokens and is silently skipped. -/
theorem claim_C10_counterexample :
    segClean "123 456" ≠ "" ∧
    isCompanyName (segClean "123 456") = false ∧
    parseOwnersFromText (some "123 456") = ⟨[], []⟩ := by
  decide

/-- C10 (amended): the invalid entries of a parse are exactly the non-company
sub-parts whose tokenization has exactly one token, each carried with its
original sub-part text and reason `ambiguous_or_incomplete_person_name`, in
order — sub-parts with at least two tokens build a Person and sub-parts with
no tokens at all (purely numeric or symbolic text) are skipped without an
entry.  In particular `"SMITH"` yields zero Persons and exactly that one
InvalidEntry. -/
theorem claim_C10 :
    (∀ rawText : Option String,
      (parseOwnersFromText rawText).invalids = expectedInvalids rawText) ∧
    parseOwnersFromText (some "SMITH") = ⟨[], [⟨"SMITH", AMBIGUOUS⟩]⟩ :=
  ⟨parse_invalids_characterization, by decide⟩

/-! The multi-person splitter against the specification's chunk description. -/

/-- The chunking the specification describes: consume the remainder in chunks
of two (first and middle) while at least two tokens remain, else a final
chunk of one (first only). -/
def chunkPairs : List String → List (String × Option String)
  | [] => []
  | [f] => [(f, none)]
  | f :: m :: rest => (f, some m) :: chunkPairs rest

/-- Build the Person of one chunk, sharing the last name `t0`. -/
def buildChunk (t0 : String) (fm : String × Option String) : Option Person :=
  match fm.2 with
  | none => buildPersonFromTokens [t0, fm.1] none
  | some m => buildPersonFromTokens [t0, fm.1, m] none

/-- The multi-person splitter as the specification words it: below four tokens
nothing, else one Person per chunk of the remainder, all sharing the first
token as last name. -/
def specSharedSurname (tokens : List String) : List Person :=
  if tokens.length < 4 then []
  else
    match tokens with
    | [] => []
    | t0 :: rest => (chunkPairs rest).filterMap (buildChunk t0)

theorem splitChunksGo_eq (t0 : String) (rest : List String) (h : ∀ t ∈ rest, t ≠ "") :
    splitChunksGo t0 rest = (chunkPairs rest).filterMap (buildChunk t0) := by
  induction rest using chunkPairs.induct with
  | case1 => rfl
  | case2 f =>
    simp only [splitChunksGo, chunkPairs, List.filterMap_cons, List.filterMap_nil, buildChunk]
    cases buildPersonFromTokens [t0, f] none <;> rfl
  | case3 f m rest ih =>
    have hm : m ≠ "" := h m (by simp)
    simp only [splitChunksGo, chunkPairs, List.filterMap_cons, buildChunk, if_pos hm]
    rw [ih (fun t ht => h t (by simp [ht]))]
    cases buildPersonFromTokens [t0, f, m] none <;> rfl

theorem splitChunksGo_length (t0 : String) (rest : List String) (h : ∀ t ∈ rest, t ≠ "") :
    (splitChunksGo t0 rest).length = (rest.length + 1) / 2 := by
  induction rest using chunkPairs.induct with
  | case1 => rfl
  | case2 f =>
    simp only [splitChunksGo, consOpt]
    have := bpft_isSome [t0, f] none (by simp)
    cases hb : buildPersonFromTokens [t0, f] none with
    | none => rw [hb] at this; simp at this
    | some p => simp [hb]
  | case3 f m rest ih =>
    have hm : m ≠ "" := h m (by simp)
    have := bpft_isSome [t0, f, m] none (by simp)
    simp only [splitChunksGo, if_pos hm, consOpt]
    cases hb : buildPersonFromTokens [t0, f, m] none with
    | none => rw [hb] at this; simp at this
    | some p =>
      simp only [hb, List.length_cons]
      rw [ih (fun t ht => h t (by simp [ht]))]
      omega

/-- C5: the splitter treats the first token as the shared last name and
consumes the remainder in chunks of two while at least two tokens remain,
else a final chunk of one, building one Person per chunk (so, on token lists
with nonempty tokens, it agrees with the specification's chunk description
and yields one Person per chunk); below four tokens it returns the empty
list; and the single-segment five-token input `"SMITH JOHN ROBERT ANN MARIE"`
parses to exactly `{John, Robert, Smith}` and `{Ann, Marie, Smith}`. -/
theorem claim_C5 :
    (∀ tokens : List String, (∀ t ∈ tokens, t ≠ "") →
      splitMultiplePersonsWithSharedLast tokens = specSharedSurname tokens) ∧
    (∀ tokens : List String, tokens.length < 4 →
      splitMultiplePersonsWithSharedLast tokens = []) ∧
    (∀ tokens : List String, (∀ t ∈ tokens, t ≠ "") → 4 ≤ tokens.length →
      (splitMultiplePersonsWithSharedLast tokens).length = tokens.length / 2) ∧
    parseOwnersFromText (some "SMITH JOHN ROBERT ANN MARIE") =
      ⟨[Owner.person ⟨"John", some "Robert", "Smith"⟩,
        Owner.person ⟨"Ann", some "Marie", "Smith"⟩], []⟩ := by
  refine ⟨fun tokens h => ?_, fun tokens h4 => ?_, fun tokens h h4 => ?_, by decide⟩
  · unfold splitMultiplePersonsWithSharedLast specSharedSurname
    split
    · rfl
    · match tokens with
      | [] => rfl
      | t0 :: rest =>
        exact splitChunksGo_eq t0 rest (fun t ht => h t (by simp [ht]))
  · unfold splitMultiplePersonsWithSharedLast
    rw [if_pos h4]
  · unfold splitMultiplePersonsWithSharedLast
    rw [if_neg (by omega)]
    match tokens, h4 with
    | t0 :: rest, _ =>
      rw [splitChunksGo_length t0 rest (fun t ht => h t (by simp [ht]))]
      simp

/-- C5 witness: the five tokens of the example taken through the theorem's
splitter-specification agreement. -/
theorem claim_C5_witness :
    splitMultiplePersonsWithSharedLast ["SMITH", "JOHN", "ROBERT", "ANN", "MARIE"] =
      specSharedSurname ["SMITH", "JOHN", "ROBERT", "ANN", "MARIE"] :=
  claim_C5.1 ["SMITH", "JOHN", "ROBERT", "ANN", "MARIE"] (by decide)

/-! Trimming and title-casing facts used by the orchestrator claims. -/

theorem length_dropWhile_le (p : Char → Bool) (l : List Char) :
    (l.dropWhile p).length ≤ l.length := by
  have h := congrArg List.length (List.takeWhile_append_dropWhile p l)
  rw [List.length_append] at h
  omega

theorem mem_dropWhile_of_not {p : Char → Bool} {l : List Char} {c : Char}
    (hc : c ∈ l) (hp : p c = false) : c ∈ l.dropWhile p := by
  induction l with
  | nil => simp at hc
  | cons d rest ih =>
    rw [List.dropWhile_cons]
    rcases List.mem_cons.mp hc with rfl | hc'
    · rw [hp]
      simp
    · split
      · exact ih hc'
      · exact List.mem_cons_of_mem _ hc'

theorem trimWs_eq_nil_iff {l : List Char} :
    trimWs l = [] ↔ ∀ c ∈ l, isSpaceChar c = true := by
  constructor
  · intro h c hc
    by_contra hcs
    have hcs' : isSpaceChar c = false := by
      cases hx : isSpaceChar c
      · rfl
      · exact absurd hx hcs
    have h1 : c ∈ l.dropWhile isSpaceChar := mem_dropWhile_of_not hc hcs'
    have h2 : c ∈ (l.dropWhile isSpaceChar).reverse.dropWhile isSpaceChar :=
      mem_dropWhile_of_not (List.mem_reverse.mpr h1) hcs'
    have h3 : c ∈ trimWs l := List.mem_reverse.mpr h2
    rw [h] at h3
    simp at h3
  · exact trimWs_allspace

theorem dropWhile_head?_false {p : Char → Bool} {l : List Char} {c : Char}
    (h : (l.dropWhile p).head? = some c) : p c = false := by
  induction l with
  | nil => simp at h
  | cons d rest ih =>
    rw [List.dropWhile_cons] at h
    split at h
    · exact ih h
    · next hd =>
      simp only [List.head?_cons, Option.some_inj] at h
      rw [← h]
      cases hx : p d
      · rfl
      · exact absurd hx hd

theorem dropWhile_of_head?_false {p : Char → Bool} {l : List Char}
    (h : ∀ c, l.head? = some c → p c = false) : l.dropWhile p = l := by
  cases l with
  | nil => rfl
  | cons c rest =>
    rw [List.dropWhile_cons, h c rfl]
    simp

theorem trimWs_head?_false (l : List Char) {c : Char}
    (h : (trimWs l).head? = some c) : isSpaceChar c = false := by
  unfold trimWs at h
  rw [List.head?_reverse] at h
  -- `c` is the last element of a suffix of `(l.dropWhile isSpaceChar).reverse`,
  -- hence the last of that reverse, hence the head of `l.dropWhile isSpaceChar`.
  have hBne : (l.dropWhile isSpaceChar).reverse.dropWhile isSpaceChar ≠ [] := by
    intro hnil
    rw [hnil] at h
    simp at h
  have hlast : ((l.dropWhile isSpaceChar).reverse.takeWhile isSpaceChar ++
      (l.dropWhile isSpaceChar).reverse.dropWhile isSpaceChar).getLast? =
      ((l.dropWhile isSpaceChar).reverse.dropWhile isSpaceChar).getLast? :=
    List.getLast?_append_of_ne_nil _ hBne
  rw [List.takeWhile_append_dropWhile, List.getLast?_reverse] at hlast
  rw [← hlast] at h
  exact dropWhile_head?_false h

theorem trimWs_idem (l : List Char) : trimWs (trimWs l) = trimWs l := by
  conv_lhs => rw [trimWs]
  rw [dropWhile_of_head?_false (fun c hc => trimWs_head?_false l hc)]
  unfold trimWs
  rw [List.reverse_reverse, List.dropWhile_idempotent]

theorem trimStr_idem (s : String) : trimStr (trimStr s) = trimStr s :=
  congrArg String.mk (trimWs_idem s.data)

theorem titleGo_spacemap (b : Bool) (l : List Char) :
    (titleGo b l).map isSpaceChar = l.map isSpaceChar := by
  induction l generalizing b with
  | nil => rfl
  | cons c rest ih =>
    simp only [titleGo]
    split_ifs <;>
      simp [List.map_cons, ih, isSpaceChar_toLower, isSpaceChar_toUpper]

theorem mem_collapseGo_of_nonspace {l : List Char} {b : Bool} {c : Char}
    (hc : c ∈ l) (hns : isSpaceChar c = false) : c ∈ collapseGo b l := by
  induction l generalizing b with
  | nil => simp at hc
  | cons d rest ih =>
    simp only [collapseGo]
    rcases List.mem_cons.mp hc with rfl | hc'
    · rw [hns]
      simp
    · split
      · split
        · exact ih hc'
        · exact List.mem_cons_of_mem _ (ih hc')
      · exact List.mem_cons_of_mem _ (ih hc')

theorem cleanTextL_ne_nil {l : List Char} (h : ∃ c ∈ l, isSpaceChar c = false) :
    cleanTextL l ≠ [] := by
  rcases h with ⟨c, hc, hns⟩
  unfold cleanTextL
  intro hnil
  rw [trimWs_eq_nil_iff] at hnil
  have := hnil c (mem_collapseGo_of_nonspace hc hns)
  rw [hns] at this
  exact Bool.noConfusion this

theorem exists_nonspace_of_trimWs_ne_nil {l : List Char} (h : trimWs l ≠ []) :
    ∃ c ∈ trimWs l, isSpaceChar c = false := by
  cases hl : trimWs l with
  | nil => exact absurd hl h
  | cons c rest =>
    refine ⟨c, by simp [hl], trimWs_head?_false l ?_⟩
    rw [hl]
    rfl

theorem exists_nonspace_titleCase {s : String}
    (h : ∃ c ∈ s.data, isSpaceChar c = false) :
    ∃ c ∈ (titleCase s).data, isSpaceChar c = false := by
  have hany : s.data.any (fun c => !isSpaceChar c) = true := by
    rcases h with ⟨c, hc, hns⟩
    exact List.any_eq_true.mpr ⟨c, hc, by rw [hns]; rfl⟩
  have key : ∀ l : List Char, (l.map isSpaceChar).any (fun b => !b) =
      l.any (fun c => !isSpaceChar c) := by
    intro l
    induction l with
    | nil => rfl
    | cons c t ih => simp only [List.map_cons, List.any_cons, ih]
  have heq : (titleCase s).data.any (fun c => !isSpaceChar c) =
      s.data.any (fun c => !isSpaceChar c) := by
    rw [← key, ← key,
      show (titleCase s).data = titleGo false s.data from rfl,
      titleGo_spacemap false s.data]
  rw [hany] at heq
  rcases List.any_eq_true.mp heq with ⟨c, hc, hns⟩
  exact ⟨c, hc, by revert hns; cases isSpaceChar c <;> simp⟩

theorem string_ne_empty_iff {s : String} : s ≠ "" ↔ s.data ≠ [] := by
  constructor
  · intro h hd
    exact h (congrArg String.mk hd)
  · intro h he
    rw [he] at h
    exact h rfl

theorem exists_nonspace_of_trimStr {x : String} {seg : String}
    (hseg : seg = trimStr x) (hne : seg ≠ "") :
    ∃ c ∈ seg.data, isSpaceChar c = false := by
  subst hseg
  exact exists_nonspace_of_trimWs_ne_nil (string_ne_empty_iff.mp hne)

theorem companyKey_ne_empty {seg : String}
    (h : ∃ c ∈ seg.data, isSpaceChar c = false) :
    normalizeOwnerKey (Owner.company (titleCase seg)) ≠ "" := by
  show strLower (cleanText (titleCase seg)) ≠ ""
  rw [string_ne_empty_iff]
  show (cleanText (titleCase seg)).data.map Char.toLower ≠ []
  intro hnil
  have h2 : (cleanText (titleCase seg)).data = [] := List.map_eq_nil_iff.mp hnil
  exact cleanTextL_ne_nil (exists_nonspace_titleCase h) h2

theorem runSegments_singleton (s : String) :
    runSegments [s] = pushOwnerOrInvalid ⟨[], [], none⟩ s := rfl

theorem segmentsOf_no_comma {t : String} (h : ∀ c ∈ t.data, ¬ c = ',')
    (ht : trimStr t = t) (hne : t ≠ "") : segmentsOf t = [t] := by
  unfold segmentsOf
  have hsplit : t.data.splitOn ',' = [t.data] := by
    unfold List.splitOn
    exact List.splitOnP_eq_single _ _ (fun x hx => by simpa using h x hx)
  rw [hsplit]
  simp only [List.map_cons, List.map_nil]
  rw [show String.mk t.data = t from rfl, ht, List.filter_cons]
  simp [hne]

/-- C4 (amended): for every input whose cleaned top-level text contains no
comma, when the re-cleaned single segment is nonempty and the company
classifier accepts it, the parse result is exactly one owner — a Company
named by the title-cased segment — with zero Persons and zero invalid
entries.  (The claim's unrestricted quantification fails on texts with
several comma segments, see the counterexample.) -/
theorem claim_C4 (raw : String)
    (hcomma : ∀ c ∈ (textOf raw).data, ¬ c = ',')
    (hne : segClean (textOf raw) ≠ "")
    (hco : isCompanyName (segClean (textOf raw)) = true) :
    parseOwnersFromText (some raw) =
      ⟨[Owner.company (titleCase (segClean (textOf raw)))], []⟩ := by
  have hraw : raw ≠ "" := by
    intro h0
    rw [h0] at hne
    exact hne (by decide)
  have htne : textOf raw ≠ "" := by
    intro h0
    rw [h0] at hne
    exact hne (by decide)
  have httrim : trimStr (textOf raw) = textOf raw := trimStr_idem _
  have hsegs : segmentsOf (textOf raw) = [textOf raw] :=
    segmentsOf_no_comma hcomma httrim htne
  have hstate : parseState (some raw) =
      ⟨[Owner.company (titleCase (segClean (textOf raw)))], [], none⟩ := by
    simp only [parseState]
    rw [if_neg hraw, hsegs, runSegments_singleton]
    unfold pushOwnerOrInvalid
    rw [if_neg hne, if_pos hco]
    rfl
  have hkey : normalizeOwnerKey (Owner.company (titleCase (segClean (textOf raw)))) ≠ "" :=
    companyKey_ne_empty (exists_nonspace_of_trimStr rfl hne)
  unfold parseOwnersFromText
  rw [hstate]
  have hd : dedupOwners [Owner.company (titleCase (segClean (textOf raw)))] =
      [Owner.company (titleCase (segClean (textOf raw)))] := by
    unfold dedupOwners dedupGo
    rw [if_neg]
    · rfl
    · rintro (hk | hk)
      · exact hkey hk
      · simp at hk
  exact congrArg₂ ParseResult.mk hd rfl

/-- C4 witness: `"ACME LLC"` taken through the theorem gives exactly one
Company named `"Acme Llc"` and nothing else. -/
theorem claim_C4_witness :
    parseOwnersFromText (some "ACME LLC") = ⟨[Owner.company "Acme Llc"], []⟩ := by
  have h := claim_C4 "ACME LLC" (by decide) (by decide) (by decide)
  rw [h]
  decide

/-! The person builder against the specification's baseline description. -/

theorem splitSpace_joinSpace {l : List String} (hne : l ≠ [])
    (h : ∀ t ∈ l, ∀ c ∈ t.data, c ≠ ' ') : splitSpace (joinSpace l) = l := by
  unfold splitSpace joinSpace
  rw [show (String.mk (List.intercalate [' '] (l.map String.data))).data =
      List.intercalate [' '] (l.map String.data) from rfl]
  rw [List.splitOn_intercalate (l.map String.data) ' '
    (fun d hd => by
      rcases List.mem_map.mp hd with ⟨t, ht, rfl⟩
      intro hc
      exact h t ht ' ' hc rfl)
    (fun hnil => hne (List.map_eq_nil_iff.mp hnil))]
  have hmk : ∀ m : List String, (m.map String.data).map String.mk = m := by
    intro m
    induction m with
    | nil => rfl
    | cons a t ih => exact congrArg₂ List.cons rfl ih
  exact hmk l

/-- C6 counterpart statement of the baseline middle name: the tokens after
the second, minus the suffix tokens, joined — absent when nothing remains,
title-cased otherwise. -/
def baselineMiddle (rest : List String) : Option String :=
  if joinSpace (rest.filter (fun t => ¬ isSuffixTok t)) = "" then none
  else some (titleCase (joinSpace (rest.filter (fun t => ¬ isSuffixTok t))))

/-- C6 (amended): the builder fails exactly on zero or one tokens; on two or
more tokens (nonempty, space-free, as the tokenizer produces them) without
the surname-omission override, tokens[0] is the last name, tokens[1] the
first name, and tokens[2:] joined — after removal of suffix tokens, absent
when nothing remains — the middle name, each title-cased; and parsing
`"SMITH JOHN"` yields the single Person `{John, -, Smith}`. -/
theorem claim_C6 :
    (∀ fb : Option String, buildPersonFromTokens [] fb = none) ∧
    (∀ (t : String) (fb : Option String), buildPersonFromTokens [t] fb = none) ∧
    (∀ (t0 t1 : String) (rest : List String) (fb : Option String),
      (∀ t ∈ rest, t ≠ "" ∧ ∀ c ∈ t.data, c ≠ ' ') →
      surnameOverride (t0 :: t1 :: rest) fb = false →
      buildPersonFromTokens (t0 :: t1 :: rest) fb =
        some ⟨titleCase t1, baselineMiddle rest, titleCase t0⟩) ∧
    parseOwnersFromText (some "SMITH JOHN") =
      ⟨[Owner.person ⟨"John", none, "Smith"⟩], []⟩ := by
  refine ⟨fun fb => rfl, fun t fb => rfl, fun t0 t1 rest fb hrest hov => ?_, by decide⟩
  simp only [buildPersonFromTokens, hov, Bool.false_eq_true, if_false, baselineMiddle]
  by_cases hr : rest = []
  · subst hr
    rfl
  · rw [if_neg hr]
    simp only [Option.some_bind]
    unfold stripMiddleSuffixes
    rw [splitSpace_joinSpace hr (fun t ht => (hrest t ht).2)]
    by_cases hj : joinSpace (rest.filter (fun t => ¬ isSuffixTok t)) = ""
    · rw [if_pos hj, if_pos hj]
      rfl
    · rw [if_neg hj, if_neg hj]
      rfl

/-- C6 witness: the two tokens of `"SMITH JOHN"` taken through the theorem's
baseline case. -/
theorem claim_C6_witness :
    buildPersonFromTokens ["SMITH", "JOHN"] none = some ⟨"John", none, "Smith"⟩ := by
  have h := claim_C6.2.2.1 "SMITH" "JOHN" [] none (by simp) (by decide)
  rw [h]
  decide

/-! Character-level facts about the tokenizer's output: tokens are nonempty
and free of whitespace, which the person builder's middle-name handling and
the deduplication key rely on. -/

/-- A well-formed token: nonempty and without whitespace characters. -/
def TokOK (t : String) : Prop :=
  t ≠ "" ∧ ∀ c ∈ t.data, isSpaceChar c = false

/-- A well-formed token list. -/
def TokensOK (ts : List String) : Prop :=
  ∀ t ∈ ts, TokOK t

theorem mem_collapseGo_space {l : List Char} {b : Bool} {c : Char}
    (h : c ∈ collapseGo b l) (hs : isSpaceChar c = true) : c = ' ' := by
  induction l generalizing b with
  | nil => simp [collapseGo] at h
  | cons d rest ih =>
    simp only [collapseGo] at h
    split at h
    · split at h
      · exact ih h
      · rcases List.mem_cons.mp h with h' | h'
        · exact h'
        · exact ih h'
    · next hd =>
      rcases List.mem_cons.mp h with h' | h'
      · subst h'
        rw [hs] at hd
        exact absurd rfl hd
      · exact ih h'

theorem mem_trimWs {l : List Char} {c : Char} (h : c ∈ trimWs l) : c ∈ l := by
  unfold trimWs at h
  rw [List.mem_reverse] at h
  have h1 := (List.dropWhile_sublist isSpaceChar).mem h
  rw [List.mem_reverse] at h1
  exact (List.dropWhile_sublist isSpaceChar).mem h1

theorem mem_cleanTextL_space {l : List Char} {c : Char}
    (h : c ∈ cleanTextL l) (hs : isSpaceChar c = true) : c = ' ' :=
  mem_collapseGo_space (mem_trimWs h) hs

theorem mem_splitOnP_flat {q : Char → Bool} {l p : List Char} {c : Char}
    (hp : p ∈ l.splitOnP q) (hc : c ∈ p) : c ∈ l ∧ q c = false := by
  induction l generalizing p with
  | nil =>
    simp only [List.splitOnP_nil, List.mem_singleton] at hp
    subst hp
    simp at hc
  | cons d rest ih =>
    rw [List.splitOnP_cons] at hp
    split at hp
    · rcases List.mem_cons.mp hp with rfl | hp'
      · simp at hc
      · have := ih hp' hc
        exact ⟨List.mem_cons_of_mem _ this.1, this.2⟩
    · next hd =>
      cases hsp : rest.splitOnP q with
      | nil => exact absurd hsp (List.splitOnP_ne_nil _ _)
      | cons h0 tl =>
        rw [hsp] at hp
        simp only [List.modifyHead] at hp
        rcases List.mem_cons.mp hp with rfl | hp'
        · rcases List.mem_cons.mp hc with rfl | hc'
          · refine ⟨List.mem_cons_self _ _, ?_⟩
            cases hq : q c
            · rfl
            · exact absurd hq hd
          · have := ih (hsp ▸ List.mem_cons_self h0 tl) hc'
            exact ⟨List.mem_cons_of_mem _ this.1, this.2⟩
        · have := ih (hsp ▸ List.mem_cons_of_mem h0 hp') hc
          exact ⟨List.mem_cons_of_mem _ this.1, this.2⟩

theorem mem_splitOn_flat {l p : List Char} {x c : Char}
    (hp : p ∈ l.splitOn x) (hc : c ∈ p) : c ∈ l ∧ ¬ c = x := by
  have hp' : p ∈ l.splitOnP (fun c => c == x) := hp
  have h := mem_splitOnP_flat hp' hc
  refine ⟨h.1, fun hcx => ?_⟩
  subst hcx
  simp at h

theorem tokenize_TokensOK (part : String) : TokensOK (tokenizeNamePart part) := by
  intro t ht
  unfold tokenizeNamePart at ht
  rcases List.mem_filter.mp ht with ⟨htm, htne⟩
  refine ⟨by simpa using htne, ?_⟩
  rcases List.mem_map.mp htm with ⟨piece, hpiece, rfl⟩
  intro c hc
  have hflat := mem_splitOn_flat hpiece hc
  -- `c` belongs to the replaced character list and is not a space character;
  -- a whitespace `c` would come from a kept whitespace character of the
  -- cleaned text, which is necessarily the plain space `' '`.
  rcases List.mem_map.mp hflat.1 with ⟨c0, hc0, hrepl⟩
  by_cases hk : keepTokChar c0 = true
  · rw [if_pos hk] at hrepl
    cases hcs : isSpaceChar c
    · rfl
    · exfalso
      have hc0mem : c0 ∈ (cleanText part).data :=
        (List.dropWhile_sublist (fun ch => ch == '*')).mem hc0
      have h1 : isSpaceChar c0 = true := by rw [hrepl]; exact hcs
      have h2 : c0 = ' ' := mem_cleanTextL_space hc0mem h1
      exact hflat.2 (by rw [← hrepl, h2])
  · rw [if_neg hk] at hrepl
    exact absurd hrepl.symm hflat.2

theorem joinSpace_single (a : String) : joinSpace [a] = a := by
  unfold joinSpace
  simp [List.intercalate]

theorem intercalate_space_cons_cons (x y : List Char) (m : List (List Char)) :
    List.intercalate [' '] (x :: y :: m) = x ++ ' ' :: List.intercalate [' '] (y :: m) := by
  simp [List.intercalate, List.intersperse]

theorem joinSpace_cons_cons (a b : String) (t : List String) :
    (joinSpace (a :: b :: t)).data = a.data ++ ' ' :: (joinSpace (b :: t)).data := by
  unfold joinSpace
  rw [List.map_cons, List.map_cons, intercalate_space_cons_cons]

theorem ne_space_of_not_spacechar {c : Char} (h : isSpaceChar c = false) : c ≠ ' ' := by
  intro hc
  subst hc
  exact Bool.noConfusion h

theorem exists_nonspace_joinSpace {l : List String} (hne : l ≠ []) (h : TokensOK l) :
    ∃ c ∈ (joinSpace l).data, isSpaceChar c = false := by
  match l with
  | [] => exact absurd rfl hne
  | [a] =>
    rw [joinSpace_single]
    have ha := h a (List.mem_singleton.mpr rfl)
    cases hd : a.data with
    | nil => exact absurd (congrArg String.mk hd) ha.1
    | cons c rest =>
      exact ⟨c, by simp, ha.2 c (by rw [hd]; simp)⟩
  | a :: b :: t =>
    rw [joinSpace_cons_cons]
    have ha := h a (List.mem_cons_self _ _)
    cases hd : a.data with
    | nil => exact absurd (congrArg String.mk hd) ha.1
    | cons c rest =>
      exact ⟨c, by simp, ha.2 c (by rw [hd]; simp)⟩

theorem titleGo_append_space (a : List Char) : ∀ (b : Bool) (bl : List Char),
    titleGo b (a ++ ' ' :: bl) = titleGo b a ++ ' ' :: titleGo false bl := by
  induction a with
  | nil =>
    intro b bl
    simp [titleGo, isSpaceChar]
  | cons c a' ih =>
    intro b bl
    simp only [List.cons_append, titleGo]
    split_ifs <;> simp [ih]

theorem titleCase_joinSpace : ∀ l : List String, l ≠ [] →
    titleCase (joinSpace l) = joinSpace (l.map titleCase) := by
  intro l
  match l with
  | [] => exact fun h => absurd rfl h
  | [a] =>
    intro _
    rw [joinSpace_single, List.map_cons, List.map_nil, joinSpace_single]
  | a :: b :: t =>
    intro _
    have ih := titleCase_joinSpace (b :: t) (by simp)
    have hL : (titleCase (joinSpace (a :: b :: t))).data =
        titleGo false a.data ++ ' ' :: (titleCase (joinSpace (b :: t))).data := by
      show titleGo false (joinSpace (a :: b :: t)).data = _
      rw [joinSpace_cons_cons, titleGo_append_space]
      rfl
    have hR : (joinSpace ((a :: b :: t).map titleCase)).data =
        (titleCase a).data ++ ' ' :: (joinSpace ((b :: t).map titleCase)).data := by
      rw [List.map_cons, List.map_cons]
      exact joinSpace_cons_cons (titleCase a) (titleCase b) (t.map titleCase)
    apply String.ext
    rw [hL, hR, ih]
    rfl

theorem any_space_titleCase (s : String) :
    (titleCase s).data.any isSpaceChar = s.data.any isSpaceChar := by
  have key : ∀ l : List Char, (l.map isSpaceChar).any (fun b => b) = l.any isSpaceChar := by
    intro l
    induction l with
    | nil => rfl
    | cons c t ih => simp only [List.map_cons, List.any_cons, ih]
  rw [← key, ← key, show (titleCase s).data = titleGo false s.data from rfl,
    titleGo_spacemap false s.data]

theorem titleCase_spacefree {t : String} (h : ∀ c ∈ t.data, isSpaceChar c = false) :
    ∀ c ∈ (titleCase t).data, isSpaceChar c = false := by
  have hany : t.data.any isSpaceChar = false :=
    List.any_eq_false.mpr (fun c hc htrue => by
      rw [h c hc] at htrue
      exact Bool.noConfusion htrue)
  have hx := any_space_titleCase t
  rw [hany] at hx
  intro c hc
  have := List.any_eq_false.mp hx c hc
  cases hy : isSpaceChar c
  · rfl
  · exact absurd hy this

theorem titleCase_TokOK {t : String} (h : TokOK t) : TokOK (titleCase t) := by
  refine ⟨?_, titleCase_spacefree h.2⟩
  rw [string_ne_empty_iff]
  show titleGo false t.data ≠ []
  cases hd : t.data with
  | nil => exact absurd (congrArg String.mk hd) h.1
  | cons c rest =>
    simp only [titleGo]
    split_ifs <;> simp

theorem lowerData_titleGo (l : List Char) : ∀ b : Bool,
    (titleGo b l).map Char.toLower = l.map Char.toLower := by
  induction l with
  | nil => intro b; rfl
  | cons c rest ih =>
    intro b
    simp only [titleGo]
    split_ifs <;>
      simp only [List.map_cons, ih, toLower_toUpper, toLower_toLower]

theorem isSuffixTok_titleCase (t : String) : isSuffixTok (titleCase t) = isSuffixTok t := by
  unfold isSuffixTok strLower
  rw [show (titleCase t).data = titleGo false t.data from rfl, lowerData_titleGo]

theorem splitSpace_titleCase_joinSpace {kept : List String}
    (hk : TokensOK kept) (hne : kept ≠ []) :
    splitSpace (titleCase (joinSpace kept)) = kept.map titleCase := by
  rw [titleCase_joinSpace kept hne]
  refine splitSpace_joinSpace (fun h => hne (List.map_eq_nil_iff.mp h)) ?_
  intro u hu c hc
  rcases List.mem_map.mp hu with ⟨t, ht, rfl⟩
  exact ne_space_of_not_spacechar (titleCase_spacefree (hk t ht).2 c hc)

theorem joinSpace_nil : joinSpace [] = "" := rfl

theorem exists_nonspace_joinSpace_head {a : String} (ha : TokOK a) (l : List String) :
    ∃ c ∈ (joinSpace (a :: l)).data, isSpaceChar c = false := by
  match l with
  | [] =>
    rw [joinSpace_single]
    cases hd : a.data with
    | nil => exact absurd (congrArg String.mk hd) ha.1
    | cons c rest =>
      exact ⟨c, by simp, ha.2 c (by rw [hd]; simp)⟩
  | b :: t =>
    rw [show (∃ c ∈ (joinSpace (a :: b :: t)).data, isSpaceChar c = false) =
      (∃ c ∈ a.data ++ ' ' :: (joinSpace (b :: t)).data, isSpaceChar c = false) by
        rw [joinSpace_cons_cons]]
    cases hd : a.data with
    | nil => exact absurd (congrArg String.mk hd) ha.1
    | cons c rest =>
      exact ⟨c, by simp, ha.2 c (by rw [hd]; simp)⟩

theorem splitSpace_single_of_spacefree {t : String}
    (h : ∀ c ∈ t.data, isSpaceChar c = false) : splitSpace t = [t] := by
  unfold splitSpace
  have hs : t.data.splitOn ' ' = [t.data] := by
    unfold List.splitOn
    refine List.splitOnP_eq_single _ _ (fun x hx => ?_)
    simp only [beq_iff_eq]
    exact ne_space_of_not_spacechar (h x hx)
  rw [hs]
  rfl

theorem of_filter_not_suffix {t : String} {src : List String}
    (ht : t ∈ src.filter (fun t => ¬ isSuffixTok t)) : isSuffixTok t = false := by
  have h := List.of_mem_filter ht
  simp only [decide_eq_true_eq] at h
  cases hx : isSuffixTok t
  · rfl
  · exact absurd hx h

theorem stripMiddle_good {src : List String} (hsrc : TokensOK src) {s : String}
    (hs : splitSpace s = src) {m : String}
    (hm : (stripMiddleSuffixes s).map titleCase = some m) :
    trimWs m.data ≠ [] ∧ ∀ u ∈ splitSpace m, isSuffixTok u = false := by
  unfold stripMiddleSuffixes at hm
  rw [hs] at hm
  by_cases hj : joinSpace (src.filter (fun t => ¬ isSuffixTok t)) = ""
  · rw [if_pos hj] at hm
    exact Option.noConfusion hm
  · rw [if_neg hj] at hm
    have hm2 : titleCase (joinSpace (src.filter (fun t => ¬ isSuffixTok t))) = m :=
      Option.some_inj.mp hm
    have hkne : src.filter (fun t => ¬ isSuffixTok t) ≠ [] := by
      intro h0
      rw [h0] at hj
      exact hj rfl
    have hkOK : TokensOK (src.filter (fun t => ¬ isSuffixTok t)) :=
      fun t ht => hsrc t (List.mem_of_mem_filter ht)
    constructor
    · rw [← hm2]
      intro hnil
      rw [trimWs_eq_nil_iff] at hnil
      rcases exists_nonspace_titleCase (exists_nonspace_joinSpace hkne hkOK) with
        ⟨c, hc, hns⟩
      have := hnil c hc
      rw [hns] at this
      exact Bool.noConfusion this
    · rw [← hm2, splitSpace_titleCase_joinSpace hkOK hkne]
      intro u hu
      rcases List.mem_map.mp hu with ⟨t, ht, rfl⟩
      rw [isSuffixTok_titleCase]
      exact of_filter_not_suffix ht

/-- The fields a successful build guarantees on tokenizer-produced tokens:
a well-formed first name, and a middle name that is non-blank and carries no
suffix token. -/
theorem bpft_good {ts : List String} {fb : Option String} {p : Person}
    (hts : TokensOK ts) (h : buildPersonFromTokens ts fb = some p) :
    TokOK p.first_name ∧
    (∀ m, p.middle_name = some m →
      trimWs m.data ≠ [] ∧ ∀ u ∈ splitSpace m, isSuffixTok u = false) := by
  match ts with
  | [] => exact absurd h (by simp [buildPersonFromTokens])
  | [t] => exact absurd h (by simp [buildPersonFromTokens])
  | t0 :: t1 :: rest =>
    have ht0 : TokOK t0 := hts t0 (by simp)
    have ht1 : TokOK t1 := hts t1 (by simp)
    have hrest : TokensOK rest := fun t ht => hts t (by simp [ht])
    simp only [buildPersonFromTokens] at h
    by_cases hov : surnameOverride (t0 :: t1 :: rest) fb = true
    · simp only [hov, if_true] at h
      have hp := Option.some_inj.mp h
      have hfst : p.first_name = titleCase t0 := by rw [← hp]
      have hmid : p.middle_name = ((some t1).bind stripMiddleSuffixes).map titleCase := by
        rw [← hp]
      refine ⟨by rw [hfst]; exact titleCase_TokOK ht0, fun m hm => ?_⟩
      rw [hmid] at hm
      simp only [Option.some_bind] at hm
      exact stripMiddle_good
        (fun t ht => by rw [List.mem_singleton.mp ht]; exact ht1)
        (splitSpace_single_of_spacefree ht1.2) hm
    · simp only [Bool.not_eq_true] at hov
      simp only [hov, Bool.false_eq_true, if_false] at h
      have hp := Option.some_inj.mp h
      have hfst : p.first_name = titleCase t1 := by rw [← hp]
      have hmid : p.middle_name =
          ((if rest = [] then none else some (joinSpace rest)).bind
            stripMiddleSuffixes).map titleCase := by
        rw [← hp]
      refine ⟨by rw [hfst]; exact titleCase_TokOK ht1, fun m hm => ?_⟩
      rw [hmid] at hm
      by_cases hr : rest = []
      · rw [if_pos hr] at hm
        simp at hm
      · rw [if_neg hr] at hm
        simp only [Option.some_bind] at hm
        exact stripMiddle_good hrest
          (splitSpace_joinSpace hr
            (fun t ht c hc => ne_space_of_not_spacechar ((hrest t ht).2 c hc))) hm

/-- Every owner the orchestrator ever appends: a company built from a
nonempty trimmed segment, or a person built by `buildPersonFromTokens` from
well-formed tokens. -/
def SourceOwner (o : Owner) : Prop :=
  (∃ seg : String, o = Owner.company (titleCase seg) ∧ seg ≠ "" ∧ seg = trimStr seg) ∨
  (∃ (ts : List String) (fb : Option String) (p : Person),
    TokensOK ts ∧ buildPersonFromTokens ts fb = some p ∧ o = Owner.person p)

theorem strLower_TokOK {t : String} (h : TokOK t) : TokOK (strLower t) := by
  constructor
  · rw [string_ne_empty_iff]
    show t.data.map Char.toLower ≠ []
    intro hnil
    exact h.1 (congrArg String.mk (List.map_eq_nil_iff.mp hnil))
  · intro c hc
    rcases List.mem_map.mp hc with ⟨c0, hc0, rfl⟩
    rw [isSpaceChar_toLower]
    exact h.2 c0 hc0

theorem sourceOwner_key_ne_empty {o : Owner} (h : SourceOwner o) :
    normalizeOwnerKey o ≠ "" := by
  rcases h with ⟨seg, rfl, hne, hseg⟩ | ⟨ts, fb, p, hts, hb, rfl⟩
  · exact companyKey_ne_empty (exists_nonspace_of_trimStr hseg hne)
  · have hfl : TokOK (strLower p.first_name) := strLower_TokOK (bpft_good hts hb).1
    show trimStr (joinSpace (([strLower p.first_name,
      strLower (p.middle_name.getD ""), strLower p.last_name]).filter
        (fun s => s ≠ ""))) ≠ ""
    rw [List.filter_cons, if_pos (by simpa using hfl.1)]
    rw [string_ne_empty_iff]
    show trimWs (joinSpace (strLower p.first_name :: _)).data ≠ []
    intro hnil
    rw [trimWs_eq_nil_iff] at hnil
    rcases exists_nonspace_joinSpace_head hfl _ with ⟨c, hc, hns⟩
    have := hnil c hc
    rw [hns] at this
    exact Bool.noConfusion this

theorem sourceOwner_nullify_eq {o : Owner} (h : SourceOwner o) :
    nullifyMiddle o = o := by
  rcases h with ⟨seg, rfl, _, _⟩ | ⟨ts, fb, p, hts, hb, rfl⟩
  · rfl
  · simp only [nullifyMiddle]
    cases hm : p.middle_name with
    | none =>
      rw [if_pos (Or.inl rfl)]
      have hp : (⟨p.first_name, none, p.last_name⟩ : Person) = p := by
        obtain ⟨f, mid, l⟩ := p
        dsimp only at hm
        rw [hm]
      rw [hp]
    | some m =>
      rw [if_neg]
      rintro (h0 | h0)
      · exact Option.noConfusion h0
      · have hgood := ((bpft_good hts hb).2 m hm).1
        exact hgood (congrArg String.data h0)

theorem sourceOwner_middle_nosuffix {o : Owner} {p : Person} {m : String}
    (h : SourceOwner o) (ho : o = Owner.person p) (hm : p.middle_name = some m) :
    ∀ u ∈ splitSpace m, isSuffixTok u = false := by
  rcases h with ⟨seg, hseg, _, _⟩ | ⟨ts, fb, p', hts, hb, hp⟩
  · rw [hseg] at ho
    exact Owner.noConfusion ho
  · rw [hp] at ho
    have hpp : p' = p := Owner.person.inj ho
    subst hpp
    exact ((bpft_good hts hb).2 m hm).2

theorem mem_consOpt {o : Option Person} {l : List Person} {p : Person}
    (h : p ∈ consOpt o l) : o = some p ∨ p ∈ l := by
  cases o with
  | none => exact Or.inr h
  | some q =>
    rcases List.mem_cons.mp h with rfl | h'
    · exact Or.inl rfl
    · exact Or.inr h'

theorem splitChunksGo_src {t0 : String} (h0 : TokOK t0) :
    ∀ rem : List String, TokensOK rem →
      ∀ p ∈ splitChunksGo t0 rem, SourceOwner (Owner.person p) := by
  intro rem
  induction rem using chunkPairs.induct with
  | case1 =>
    intro _ p hp
    simp [splitChunksGo] at hp
  | case2 f =>
    intro h p hp
    unfold splitChunksGo at hp
    rcases mem_consOpt hp with hb | hb
    · refine Or.inr ⟨[t0, f], none, p, ?_, hb, rfl⟩
      intro t ht
      rcases List.mem_cons.mp ht with rfl | ht'
      · exact h0
      · rw [List.mem_singleton.mp ht']
        exact h f (List.mem_singleton.mpr rfl)
    · simp at hb
  | case3 x y zs ih =>
    intro h p hp
    have hy : y ≠ "" := (h y (by simp)).1
    unfold splitChunksGo at hp
    rw [if_pos hy] at hp
    rcases mem_consOpt hp with hb | hb
    · refine Or.inr ⟨[t0, x, y], none, p, ?_, hb, rfl⟩
      intro u hu
      rcases List.mem_cons.mp hu with rfl | hu'
      · exact h0
      · rcases List.mem_cons.mp hu' with rfl | hu''
        · exact h u (by simp)
        · rw [List.mem_singleton.mp hu'']
          exact h y (by simp)
    · exact ih (fun u hu => h u (by simp [hu])) p hb

theorem splitMulti_src {tokens : List String} (htok : TokensOK tokens) :
    ∀ p ∈ splitMultiplePersonsWithSharedLast tokens, SourceOwner (Owner.person p) := by
  intro p hp
  unfold splitMultiplePersonsWithSharedLast at hp
  split at hp
  · simp at hp
  · match tokens, hp with
    | t0 :: rem, hp =>
      exact splitChunksGo_src (htok t0 (by simp)) rem
        (fun t ht => htok t (by simp [ht])) p hp

theorem stepRest_src (idx : Nat) (st : PState) (localLS : Option String)
    (part : String) (tokens : List String) (htok : TokensOK tokens)
    (hst : ∀ o ∈ st.owners, SourceOwner o) :
    ∀ o ∈ (stepRest idx st localLS part tokens).1.owners, SourceOwner o := by
  unfold stepRest
  dsimp only
  split
  · next p hp =>
    intro o ho
    simp only [pushPerson] at ho
    rcases List.mem_append.mp ho with ho' | ho'
    · exact hst o ho'
    · rw [List.mem_singleton.mp ho']
      exact Or.inr ⟨tokens, _, p, htok, hp, rfl⟩
  · next hp =>
    split
    · split
      · next p1 p2 hp1 hp2 =>
        intro o ho
        simp only at ho
        rcases List.mem_append.mp ho with ho' | ho'
        · exact hst o ho'
        · rcases List.mem_cons.mp ho' with rfl | ho''
          · exact Or.inr ⟨tokens.take 3, none, p1,
              fun t ht => htok t ((List.take_sublist 3 tokens).mem ht), hp1, rfl⟩
          · rw [List.mem_singleton.mp ho'']
            exact Or.inr ⟨tokens.drop 3, some (tokens.headD ""), p2,
              fun t ht => htok t ((List.drop_sublist 3 tokens).mem ht), hp2, rfl⟩
      · next =>
        intro o ho
        simp only [pushInvalid] at ho
        exact hst o ho
    · intro o ho
      simp only [pushInvalid] at ho
      exact hst o ho

theorem stepPart_src (total idx : Nat) (st : PState) (localLS : Option String)
    (part : String) (hst : ∀ o ∈ st.owners, SourceOwner o) :
    ∀ o ∈ (stepPart total idx st localLS part).1.owners, SourceOwner o := by
  unfold stepPart
  by_cases hnil : tokenizeNamePart part = []
  · rw [if_pos hnil]
    exact hst
  · rw [if_neg hnil]
    by_cases hmulti : total = 1 ∧ 4 ≤ (tokenizeNamePart part).length
    · rw [if_pos hmulti]
      dsimp only
      split
      · intro o ho
        simp only at ho
        rcases List.mem_append.mp ho with ho' | ho'
        · exact hst o ho'
        · rcases List.mem_map.mp ho' with ⟨p, hp, rfl⟩
          exact splitMulti_src (tokenize_TokensOK part) p hp
      · exact stepRest_src idx st localLS part _ (tokenize_TokensOK part) hst
    · rw [if_neg hmulti]
      exact stepRest_src idx st localLS part _ (tokenize_TokensOK part) hst

theorem processParts_src (parts : List String) (total : Nat) (st : PState)
    (localLS : Option String) (idx : Nat) (hst : ∀ o ∈ st.owners, SourceOwner o) :
    ∀ o ∈ (processParts total st localLS idx parts).owners, SourceOwner o := by
  induction parts generalizing st localLS idx with
  | nil => exact hst
  | cons part rest ih =>
    simp only [processParts]
    exact ih _ _ _ (stepPart_src total idx st localLS part hst)

theorem pushOwnerOrInvalid_src (st : PState) (segment : String)
    (hst : ∀ o ∈ st.owners, SourceOwner o) :
    ∀ o ∈ (pushOwnerOrInvalid st segment).owners, SourceOwner o := by
  unfold pushOwnerOrInvalid
  by_cases h0 : segClean segment = ""
  · rw [if_pos h0]
    exact hst
  · rw [if_neg h0]
    by_cases hc : isCompanyName (segClean segment) = true
    · rw [if_pos hc]
      intro o ho
      simp only at ho
      rcases List.mem_append.mp ho with ho' | ho'
      · exact hst o ho'
      · rw [List.mem_singleton.mp ho']
        exact Or.inl ⟨segClean segment, rfl, h0, (trimStr_idem _).symm⟩
    · rw [if_neg hc]
      exact processParts_src _ _ _ _ _ hst

theorem foldl_push_src (segs : List String) (st : PState)
    (hst : ∀ o ∈ st.owners, SourceOwner o) :
    ∀ o ∈ (segs.foldl pushOwnerOrInvalid st).owners, SourceOwner o := by
  induction segs generalizing st with
  | nil => exact hst
  | cons seg rest ih =>
    exact ih _ (pushOwnerOrInvalid_src st seg hst)

theorem parseState_src (rawText : Option String) :
    ∀ o ∈ (parseState rawText).owners, SourceOwner o := by
  cases rawText with
  | none =>
    intro o ho
    simp [parseState] at ho
  | some raw =>
    simp only [parseState]
    by_cases h0 : raw = ""
    · rw [if_pos h0]
      intro o ho
      simp at ho
    · rw [if_neg h0]
      exact foldl_push_src _ _ (by intro o ho; simp at ho)

/-! Properties of the deduplication pass on lists of well-formed owners. -/

theorem dedupGo_sublist {l : List Owner} (hg : ∀ o ∈ l, nullifyMiddle o = o) :
    ∀ seen : List String, (dedupGo seen l).Sublist l := by
  induction l with
  | nil =>
    intro seen
    simp [dedupGo]
  | cons a rest ih =>
    intro seen
    simp only [dedupGo]
    split
    · exact (ih (fun x hx => hg x (List.mem_cons_of_mem _ hx)) seen).cons a
    · rw [hg a (List.mem_cons_self _ _)]
      exact (ih (fun x hx => hg x (List.mem_cons_of_mem _ hx)) _).cons₂ a

theorem dedupGo_find {l : List Owner} (hg : ∀ o ∈ l, nullifyMiddle o = o) :
    ∀ seen : List String, ∀ o ∈ dedupGo seen l,
      normalizeOwnerKey o ∉ seen ∧ normalizeOwnerKey o ≠ "" ∧
      l.find? (fun x => normalizeOwnerKey x == normalizeOwnerKey o) = some o := by
  induction l with
  | nil =>
    intro seen o ho
    simp [dedupGo] at ho
  | cons a rest ih =>
    intro seen o ho
    have hgrest : ∀ x ∈ rest, nullifyMiddle x = x :=
      fun x hx => hg x (List.mem_cons_of_mem _ hx)
    simp only [dedupGo] at ho
    split at ho
    · next hcond =>
      obtain ⟨h1, h2, h3⟩ := ih hgrest seen o ho
      refine ⟨h1, h2, ?_⟩
      rw [List.find?_cons]
      have hne : (normalizeOwnerKey a == normalizeOwnerKey o) = false := by
        rw [beq_eq_false_iff_ne]
        intro heq
        rcases hcond with hc | hc
        · exact h2 (by rw [← heq, hc])
        · exact h1 (heq ▸ List.elem_iff.mp hc)
      rw [hne]
      exact h3
    · next hcond =>
      rw [hg a (List.mem_cons_self _ _)] at ho
      have hcond' : ¬ (normalizeOwnerKey a = "" ∨
          seen.contains (normalizeOwnerKey a) = true) := hcond
      push_neg at hcond'
      rcases List.mem_cons.mp ho with rfl | ho'
      · refine ⟨fun hmem => hcond'.2 (List.elem_iff.mpr hmem), hcond'.1, ?_⟩
        rw [List.find?_cons]
        rw [show (normalizeOwnerKey o == normalizeOwnerKey o) = true from beq_self_eq_true _]
      · obtain ⟨h1, h2, h3⟩ := ih hgrest _ o ho'
        have hne : normalizeOwnerKey o ≠ normalizeOwnerKey a :=
          fun heq => h1 (heq ▸ List.mem_cons_self _ _)
        refine ⟨fun hmem => h1 (List.mem_cons_of_mem _ hmem), h2, ?_⟩
        rw [List.find?_cons]
        have hne' : (normalizeOwnerKey a == normalizeOwnerKey o) = false := by
          rw [beq_eq_false_iff_ne]
          exact fun heq => hne heq.symm
        rw [hne']
        exact h3

theorem dedupGo_nodup {l : List Owner} (hg : ∀ o ∈ l, nullifyMiddle o = o) :
    ∀ seen : List String, ((dedupGo seen l).map normalizeOwnerKey).Nodup := by
  induction l with
  | nil =>
    intro seen
    simp [dedupGo]
  | cons a rest ih =>
    intro seen
    have hgrest : ∀ x ∈ rest, nullifyMiddle x = x :=
      fun x hx => hg x (List.mem_cons_of_mem _ hx)
    simp only [dedupGo]
    split
    · exact ih hgrest seen
    · rw [hg a (List.mem_cons_self _ _)]
      rw [List.map_cons, List.nodup_cons]
      constructor
      · intro hmem
        rcases List.mem_map.mp hmem with ⟨o', ho', hkey⟩
        have := (dedupGo_find hgrest _ o' ho').1
        exact this (hkey ▸ List.mem_cons_self _ _)
      · exact ih hgrest _

theorem dedupGo_complete {l : List Owner} (hg : ∀ o ∈ l, nullifyMiddle o = o) :
    ∀ seen : List String, ∀ o₀ ∈ l, normalizeOwnerKey o₀ ≠ "" →
      normalizeOwnerKey o₀ ∈ seen ∨
      ∃ o ∈ dedupGo seen l, normalizeOwnerKey o = normalizeOwnerKey o₀ := by
  induction l with
  | nil =>
    intro seen o₀ h₀
    simp at h₀
  | cons a rest ih =>
    intro seen o₀ h₀ hk
    have hgrest : ∀ x ∈ rest, nullifyMiddle x = x :=
      fun x hx => hg x (List.mem_cons_of_mem _ hx)
    simp only [dedupGo]
    rcases List.mem_cons.mp h₀ with rfl | h₀'
    · split
      · next hcond =>
        rcases hcond with hc | hc
        · exact absurd hc hk
        · exact Or.inl (List.elem_iff.mp hc)
      · refine Or.inr ⟨nullifyMiddle o₀, List.mem_cons_self _ _, ?_⟩
        rw [hg o₀ (List.mem_cons_self _ _)]
    · split
      · exact ih hgrest seen o₀ h₀' hk
      · rcases ih hgrest (normalizeOwnerKey a :: seen) o₀ h₀' hk with hin | ⟨o, ho, hkey⟩
        · rcases List.mem_cons.mp hin with heq | hin'
          · refine Or.inr ⟨nullifyMiddle a, List.mem_cons_self _ _, ?_⟩
            rw [hg a (List.mem_cons_self _ _), heq]
          · exact Or.inl hin'
        · exact Or.inr ⟨o, List.mem_cons_of_mem _ ho, hkey⟩

/-- C7: in every parse result no two owners share a normalized key; the kept
owners form a sublist of the accumulated (pre-deduplication) owners, so
relative order is preserved; each kept owner is the first accumulated owner
with its key (first occurrence wins); and every accumulated owner's key is
represented.  This holds for every input, hence under any permutation of the
input fragments. -/
theorem claim_C7 (rawText : Option String) :
    ((parseOwnersFromText rawText).owners.map normalizeOwnerKey).Nodup ∧
    ((parseOwnersFromText rawText).owners).Sublist (preOwners rawText) ∧
    (∀ o ∈ (parseOwnersFromText rawText).owners,
      (preOwners rawText).find?
        (fun x => normalizeOwnerKey x == normalizeOwnerKey o) = some o) ∧
    (∀ o₀ ∈ preOwners rawText, ∃ o ∈ (parseOwnersFromText rawText).owners,
      normalizeOwnerKey o = normalizeOwnerKey o₀) := by
  have hsrc := parseState_src rawText
  have hg : ∀ o ∈ (parseState rawText).owners, nullifyMiddle o = o :=
    fun o ho => sourceOwner_nullify_eq (hsrc o ho)
  refine ⟨dedupGo_nodup hg [], dedupGo_sublist hg [],
    fun o ho => (dedupGo_find hg [] o ho).2.2, fun o₀ h₀ => ?_⟩
  rcases dedupGo_complete hg [] o₀ h₀ (sourceOwner_key_ne_empty (hsrc o₀ h₀)) with h | h
  · simp at h
  · exact h

/-- C7 witness: two fragments with the same key collapse to the first one. -/
theorem claim_C7_witness :
    (preOwners (some "SMITH JOHN, SMITH JOHN")).find?
      (fun x => normalizeOwnerKey x ==
        normalizeOwnerKey (Owner.person ⟨"John", none, "Smith"⟩)) =
      some (Owner.person ⟨"John", none, "Smith"⟩) :=
  (claim_C7 (some "SMITH JOHN, SMITH JOHN")).2.2.1 _ (by decide)

/-- C8: no Person in any parse result carries a middle name with a
space-delimited token that case-insensitively equals one of the suffixes of
`SUFFIXES_IGNORE` — such tokens are stripped from the middle-name portion,
and an emptied middle name is absent (covered by the `some` hypothesis). -/
theorem claim_C8 (rawText : Option String) (p : Person) (m : String)
    (hmem : Owner.person p ∈ (parseOwnersFromText rawText).owners)
    (hm : p.middle_name = some m) :
    ∀ u ∈ splitSpace m, isSuffixTok u = false := by
  have hsrc := parseState_src rawText
  have hg : ∀ o ∈ (parseState rawText).owners, nullifyMiddle o = o :=
    fun o ho => sourceOwner_nullify_eq (hsrc o ho)
  have hpre : Owner.person p ∈ (parseState rawText).owners :=
    (dedupGo_sublist hg []).mem hmem
  exact sourceOwner_middle_nosuffix (hsrc _ hpre) rfl hm

/-- C8 witness: the middle name `"Robert"` of the parse of
`"SMITH JOHN ROBERT"` is no suffix token. -/
theorem claim_C8_witness : isSuffixTok "Robert" = false :=
  claim_C8 (some "SMITH JOHN ROBERT") ⟨"John", some "Robert", "Smith"⟩ "Robert"
    (by decide) (by decide) "Robert" (by decide)

/-! The company classifier: normalizing the regex's leading and trailing
context conditions into whole-word occurrence conditions. -/

theorem word_not_space {c : Char} (h : wordCharB c = true) : isSpaceChar c = false := by
  simp only [wordCharB, Bool.or_eq_true, Bool.and_eq_true, decide_eq_true_eq] at h
  simp only [isSpaceChar]
  rw [Bool.eq_false_iff]
  intro hx
  simp only [Bool.or_eq_true, decide_eq_true_eq] at hx
  omega

theorem space_not_word {c : Char} (h : isSpaceChar c = true) : wordCharB c = false := by
  simp only [isSpaceChar, Bool.or_eq_true, decide_eq_true_eq] at h
  simp only [wordCharB]
  rw [Bool.eq_false_iff]
  intro hx
  simp only [Bool.or_eq_true, Bool.and_eq_true, decide_eq_true_eq] at hx
  omega

theorem litHere_chAt {l : List Char} {q : Nat} {w : String} (h : litHere l q w = true)
    (i : Nat) (hi : i < w.data.length) :
    q + i < l.length ∧ chAt l (q + i) = w.data.getD i ' ' := by
  unfold litHere at h
  rw [List.isPrefixOf_iff_prefix] at h
  rcases h with ⟨t, ht⟩
  have hlen := congrArg List.length ht
  rw [List.length_append, List.length_drop] at hlen
  constructor
  · omega
  · have h1 : l.get? (q + i) = (l.drop q).get? i := (List.get?_drop l q i).symm
    rw [← ht] at h1
    rw [List.get?_append hi] at h1
    show (l.get? (q + i)).getD ' ' = (w.data.get? i).getD ' '
    rw [h1]

theorem wordAt_of_litHere_head {l : List Char} {q : Nat} (w : String)
    (h : litHere l q w = true) (hne : w.data ≠ [])
    (hhead : wordCharB (w.data.getD 0 ' ') = true) : wordAt l q = true := by
  obtain ⟨hrange, hch⟩ := litHere_chAt h 0 (List.length_pos.mpr hne)
  rw [Nat.add_zero] at hrange hch
  unfold wordAt
  rw [hch, hhead]
  simp [hrange]

theorem trailCtx_after_word {l : List Char} {j : Nat} (hj : j ≠ 0)
    (hword : wordAt l (j - 1) = true) : trailCtx l j = !wordAt l j := by
  unfold trailCtx boundaryAt
  rw [show decide (j ≠ 0) = true by simp [hj], hword]
  cases hw : wordAt l j
  · rfl
  · have hsp : spaceAt l j = false := by
      unfold spaceAt
      unfold wordAt at hw
      simp only [Bool.and_eq_true] at hw
      rcases hw with ⟨h1, h2⟩
      rw [h1, word_not_space h2]
      rfl
    rw [hsp]
    rfl

theorem trailCtx_after_dot {l : List Char} {j : Nat} (hdot : chAt l (j - 1) = '.') :
    trailCtx l j = (wordAt l j || spaceAt l j) := by
  unfold trailCtx boundaryAt
  have h1 : wordAt l (j - 1) = false := by
    unfold wordAt
    rw [hdot]
    rw [show wordCharB '.' = false by decide]
    simp
  rw [h1]
  cases hw : wordAt l j <;> simp

theorem litHere_append_dot {l : List Char} {q : Nat} {w : String}
    (h : litHere l q (w ++ ".") = true) :
    litHere l q w = true ∧ chAt l (q + w.data.length) = '.' := by
  have hdata : (w ++ ".").data = w.data ++ ['.'] := by
    rw [String.data_append]
  constructor
  · unfold litHere at h ⊢
    rw [List.isPrefixOf_iff_prefix] at h ⊢
    rw [hdata] at h
    exact ((w.data.prefix_append ['.']).trans h)
  · have hlen : w.data.length < (w ++ ".").data.length := by
      rw [hdata, List.length_append]
      simp
    obtain ⟨_, hch⟩ := litHere_chAt h w.data.length hlen
    rw [hch, hdata]
    show ((w.data ++ [Char.ofNat 46]).get? w.data.length).getD (Char.ofNat 32) = Char.ofNat 46
    rw [List.get?_append_right (Nat.le_refl _)]
    simp

theorem wordAt_of_chAt_dot {l : List Char} {i : Nat} (h : chAt l i = '.') :
    wordAt l i = false := by
  unfold wordAt
  rw [h, show wordCharB '.' = false by decide]
  simp

/-- A letter-ended plain alternative matches exactly when the literal is
present and not followed by a word character. -/
theorem altHere_lit_letter (l : List Char) (q : Nat) (w : String)
    (hne : w.data ≠ [])
    (hlast : wordCharB (w.data.getD (w.data.length - 1) ' ') = true) :
    altHere l q (.lit w) = (litHere l q w && !wordAt l (q + w.data.length)) := by
  have hpos : 0 < w.data.length := List.length_pos.mpr hne
  simp only [altHere]
  cases hlit : litHere l q w
  · rfl
  · simp only [Bool.true_and]
    obtain ⟨hrange, hch⟩ := litHere_chAt hlit (w.data.length - 1) (by omega)
    refine trailCtx_after_word (by omega) ?_
    have harith : q + w.data.length - 1 = q + (w.data.length - 1) := by omega
    unfold wordAt
    rw [harith, hch, hlast]
    simp only [Bool.and_true, decide_eq_true_eq]
    exact hrange

/-- A letter-ended `\b`-suffixed alternative likewise. -/
theorem altHere_litB_letter (l : List Char) (q : Nat) (w : String)
    (hne : w.data ≠ [])
    (hlast : wordCharB (w.data.getD (w.data.length - 1) ' ') = true) :
    altHere l q (.litB w) = (litHere l q w && !wordAt l (q + w.data.length)) := by
  have hpos : 0 < w.data.length := List.length_pos.mpr hne
  simp only [altHere]
  cases hlit : litHere l q w
  · rfl
  · simp only [Bool.true_and]
    obtain ⟨hrange, hch⟩ := litHere_chAt hlit (w.data.length - 1) (by omega)
    have hword : wordAt l (q + w.data.length - 1) = true := by
      have harith : q + w.data.length - 1 = q + (w.data.length - 1) := by omega
      unfold wordAt
      rw [harith, hch, hlast]
      simp only [Bool.and_true, decide_eq_true_eq]
      exact hrange
    rw [trailCtx_after_word (by omega) hword]
    unfold boundaryAt
    have hdz : decide (q + w.data.length ≠ 0) = true := by
      simp only [decide_eq_true_eq]
      omega
    rw [hdz, hword]
    cases wordAt l (q + w.data.length) <;> rfl

/-- An optional-period alternative: the period branch is subsumed, because a
present period is itself a trailing word boundary for the plain literal. -/
theorem altHere_litDot_letter (l : List Char) (q : Nat) (w : String)
    (hne : w.data ≠ [])
    (hlast : wordCharB (w.data.getD (w.data.length - 1) ' ') = true) :
    altHere l q (.litDot w) = (litHere l q w && !wordAt l (q + w.data.length)) := by
  have hpos : 0 < w.data.length := List.length_pos.mpr hne
  simp only [altHere]
  cases hlit : litHere l q w
  · have hdot : litHere l q (w ++ ".") = false := by
      cases h2 : litHere l q (w ++ ".")
      · rfl
      · rw [(litHere_append_dot h2).1] at hlit
        exact hlit
    rw [hdot]
    rfl
  · simp only [Bool.true_and]
    obtain ⟨hrange, hch⟩ := litHere_chAt hlit (w.data.length - 1) (by omega)
    have hword : wordAt l (q + w.data.length - 1) = true := by
      have harith : q + w.data.length - 1 = q + (w.data.length - 1) := by omega
      unfold wordAt
      rw [harith, hch, hlast]
      simp only [Bool.and_true, decide_eq_true_eq]
      exact hrange
    rw [trailCtx_after_word (by omega) hword]
    cases h2 : litHere l q (w ++ ".")
    · rfl
    · obtain ⟨_, hchdot⟩ := litHere_append_dot h2
      have htc : trailCtx l (q + w.data.length + 1) =
          (wordAt l (q + w.data.length + 1) || spaceAt l (q + w.data.length + 1)) := by
        refine trailCtx_after_dot ?_
        have harith : q + w.data.length + 1 - 1 = q + w.data.length := by omega
        rw [harith, hchdot]
      rw [htc, wordAt_of_chAt_dot hchdot]
      simp

/-- A period-terminated alternative (`l.l.c.`, `n.a.`): its trailing context
requires a word character or a whitespace character after the final period. -/
theorem altHere_lit_dotted (l : List Char) (q : Nat) (w : String)
    (hne : w.data ≠ [])
    (hlast : w.data.getD (w.data.length - 1) ' ' = '.') :
    altHere l q (.lit w) =
      (litHere l q w && (wordAt l (q + w.data.length) || spaceAt l (q + w.data.length))) := by
  have hpos : 0 < w.data.length := List.length_pos.mpr hne
  simp only [altHere]
  cases hlit : litHere l q w
  · rfl
  · simp only [Bool.true_and]
    obtain ⟨hrange, hch⟩ := litHere_chAt hlit (w.data.length - 1) (by omega)
    refine trailCtx_after_dot ?_
    have harith : q + w.data.length - 1 = q + (w.data.length - 1) := by omega
    rw [harith, hch, hlast]

/-- The match condition at a fixed position, with the leading context already
split off, coincides with the amended per-indicator occurrence test. -/
theorem matchAt_norm (l : List Char) (q : Nat) :
    (preOK l q && COMPANY_ALTS.any (altHere l q)) =
      AMENDED_COMPANY_KEYWORDS.any (keywordOccAt l q) := by
  simp only [COMPANY_ALTS, AMENDED_COMPANY_KEYWORDS, List.any_cons, List.any_nil,
    keywordOccAt, Bool.not_false, Bool.not_true, Bool.true_and, Bool.false_and,
    Bool.or_false, Bool.false_or]
  rw [altHere_litDot_letter l q "inc" (by decide) (by decide)]
  rw [altHere_lit_dotted l q "l.l.c." (by decide) (by decide)]
  rw [altHere_lit_letter l q "llc" (by decide) (by decide)]
  rw [altHere_litDot_letter l q "ltd" (by decide) (by decide)]
  rw [altHere_lit_letter l q "foundation" (by decide) (by decide)]
  rw [altHere_lit_letter l q "alliance" (by decide) (by decide)]
  rw [altHere_lit_letter l q "solutions" (by decide) (by decide)]
  rw [altHere_litDot_letter l q "corp" (by decide) (by decide)]
  rw [altHere_litDot_letter l q "co" (by decide) (by decide)]
  rw [altHere_lit_letter l q "services" (by decide) (by decide)]
  rw [altHere_litB_letter l q "trust" (by decide) (by decide)]
  rw [altHere_litB_letter l q "tr" (by decide) (by decide)]
  rw [altHere_lit_letter l q "associates" (by decide) (by decide)]
  rw [altHere_lit_letter l q "partners" (by decide) (by decide)]
  rw [altHere_litB_letter l q "lp" (by decide) (by decide)]
  rw [altHere_litB_letter l q "llp" (by decide) (by decide)]
  rw [altHere_litB_letter l q "bank" (by decide) (by decide)]
  rw [altHere_lit_dotted l q "n.a." (by decide) (by decide)]
  rw [altHere_litB_letter l q "na" (by decide) (by decide)]
  rw [altHere_litB_letter l q "pllc" (by decide) (by decide)]
  rw [altHere_lit_letter l q "company" (by decide) (by decide)]
  rw [altHere_lit_letter l q "enterprises" (by decide) (by decide)]
  rw [altHere_lit_letter l q "properties" (by decide) (by decide)]
  rw [altHere_lit_letter l q "holdings" (by decide) (by decide)]
  cases hp : preOK l q
  · simp only [wholeWordAt, dottedWordAt, hp, Bool.false_and, Bool.and_false,
      Bool.or_false, Bool.or_self]
  · simp only [wholeWordAt, dottedWordAt, hp, Bool.true_and, Bool.and_true]

theorem altHere_lit_first {l : List Char} {q : Nat} {w : String}
    (h : altHere l q (.lit w) = true) : litHere l q w = true := by
  simp only [altHere, Bool.and_eq_true] at h
  exact h.1

theorem altHere_litB_first {l : List Char} {q : Nat} {w : String}
    (h : altHere l q (.litB w) = true) : litHere l q w = true := by
  simp only [altHere, Bool.and_eq_true] at h
  exact h.1.1

theorem altHere_litDot_first {l : List Char} {q : Nat} {w : String}
    (h : altHere l q (.litDot w) = true) : litHere l q w = true := by
  simp only [altHere, Bool.or_eq_true, Bool.and_eq_true] at h
  rcases h with ⟨h1, _⟩ | ⟨h1, _⟩
  · exact (litHere_append_dot h1).1
  · exact h1

/-- Every alternative of the source pattern starts with a letter, so a match
of the alternation at `q` puts a word character at `q`. -/
theorem alts_first_word {l : List Char} {q : Nat}
    (h : COMPANY_ALTS.any (altHere l q) = true) : wordAt l q = true := by
  simp only [COMPANY_ALTS, List.any_cons, List.any_nil, Bool.or_eq_true,
    Bool.or_false] at h
  rcases h with h|h|h|h|h|h|h|h|h|h|h|h|h|h|h|h|h|h|h|h|h|h|h|h <;>
    first
      | exact wordAt_of_litHere_head _ (altHere_lit_first h) (by decide) (by decide)
      | exact wordAt_of_litHere_head _ (altHere_litB_first h) (by decide) (by decide)
      | exact wordAt_of_litHere_head _ (altHere_litDot_first h) (by decide) (by decide)

theorem any_congr_fn {α : Type} (l : List α) (p q : α → Bool)
    (h : ∀ a, p a = q a) : l.any p = l.any q := by
  induction l with
  | nil => rfl
  | cons a t ih => simp only [List.any_cons, h, ih]

/-- The classifier over an arbitrary character list: a pattern match somewhere
is the same as a leading-context-normalized match somewhere. -/
theorem companyScan_eq_preScan (low : List Char) :
    (List.range (low.length + 1)).any (companyMatchAt low) =
      (List.range (low.length + 1)).any (fun q =>
        preOK low q && COMPANY_ALTS.any (altHere low q)) := by
  rw [Bool.eq_iff_iff]
  simp only [List.any_eq_true, List.mem_range]
  constructor
  · rintro ⟨p, hp, hmatch⟩
    unfold companyMatchAt at hmatch
    rw [Bool.or_eq_true] at hmatch
    rcases hmatch with hb | hs
    · rw [Bool.and_eq_true] at hb
      obtain ⟨hbd, halts⟩ := hb
      refine ⟨p, hp, ?_⟩
      have hw : wordAt low p = true := alts_first_word halts
      unfold boundaryAt at hbd
      rw [hw] at hbd
      have hpre : preOK low p = true := by
        unfold preOK
        cases hp0 : (p == 0)
        · have hne : decide (p ≠ 0) = true := by
            simp only [decide_eq_true_eq, ne_eq]
            exact beq_eq_false_iff_ne.mp hp0
          rw [hne, Bool.true_and] at hbd
          have hwq : wordAt low (p - 1) = false := by
            cases h : wordAt low (p - 1)
            · rfl
            · rw [h] at hbd
              exact absurd hbd (by decide)
          rw [hwq]
          rfl
        · rfl
      rw [hpre, halts]
      rfl
    · rw [Bool.and_eq_true] at hs
      obtain ⟨hsp, halts⟩ := hs
      unfold spaceAt at hsp
      rw [Bool.and_eq_true] at hsp
      obtain ⟨hlt, hspc⟩ := hsp
      rw [decide_eq_true_eq] at hlt
      refine ⟨p + 1, by omega, ?_⟩
      have hwp : wordAt low p = false := by
        unfold wordAt
        rw [space_not_word hspc]
        simp
      have hpre : preOK low (p + 1) = true := by
        unfold preOK
        rw [show p + 1 - 1 = p from rfl, hwp]
        rfl
      rw [hpre, halts]
      rfl
  · rintro ⟨q, hq, hocc⟩
    rw [Bool.and_eq_true] at hocc
    obtain ⟨hpre, halts⟩ := hocc
    refine ⟨q, hq, ?_⟩
    unfold companyMatchAt
    have hw : wordAt low q = true := alts_first_word halts
    have hbd : boundaryAt low q = true := by
      unfold boundaryAt
      rw [hw]
      unfold preOK at hpre
      cases hq0 : (q == 0)
      · rw [hq0] at hpre
        have hwq : wordAt low (q - 1) = false := by
          cases h : wordAt low (q - 1)
          · rfl
          · rw [h] at hpre
            exact absurd hpre (by decide)
        have hne : decide (q ≠ 0) = true := by
          simp only [decide_eq_true_eq, ne_eq]
          exact beq_eq_false_iff_ne.mp hq0
        rw [hne, hwq]
        rfl
      · have hq00 : q = 0 := eq_of_beq hq0
        rw [hq00]
        rfl
    rw [hbd, halts]
    rfl

/-- **C3.** The company classifier accepts exactly when some amended indicator
occurs case-insensitively as characterized by `AMENDED_COMPANY_KEYWORDS`:
whole-word occurrence for the plain indicators, and for the two
period-terminated indicators an occurrence followed by a word or whitespace
character. (The specification's plain whole-word reading differs: it accepts
"ACME N.A.", which the code rejects.) -/
theorem claim_C3 : ∀ txt : String, isCompanyName txt = amendedIsCompany txt := by
  intro txt
  show (List.range ((txt.data.map Char.toLower).length + 1)).any
      (companyMatchAt (txt.data.map Char.toLower)) =
    (List.range ((txt.data.map Char.toLower).length + 1)).any (fun q =>
      AMENDED_COMPANY_KEYWORDS.any (keywordOccAt (txt.data.map Char.toLower) q))
  rw [companyScan_eq_preScan]
  exact any_congr_fn _ _ _ (fun q => matchAt_norm (txt.data.map Char.toLower) q)

end OwnerMapping
